import Mathlib

/-!
Verification development for the moonbeam OpenAPI client generator.

The Go sources (main.go, openapi.go) are shallowly embedded below.  Go maps
are represented as association lists carried in iteration order; running the
generator a second time corresponds to presenting the same association lists
in a permuted order.  Machine strings are Lean `String`s, and every string
operation used by the generator (splitting, prefix tests, lexicographic
sorting, per-character case mapping) is implemented over `String.data` so
that all definitions evaluate inside the kernel.
-/

namespace Moonbeam

/-! ## String primitives (models of the Go `strings` package operations) -/

/-- Lexicographic order on character lists by code point; models the byte
order that `sort.Strings` uses (UTF-8 byte order coincides with code-point
order). -/
def listLeB : List Char → List Char → Bool
  | [], _ => true
  | _ :: _, [] => false
  | a :: as, b :: bs =>
    if a.toNat < b.toNat then true
    else if b.toNat < a.toNat then false
    else listLeB as bs

/-- String comparison used to model `sort.Strings`. -/
def strLeB (a b : String) : Bool := listLeB a.data b.data

/-- The order `sort.Strings` sorts by, as a proposition. -/
def strLe (a b : String) : Prop := strLeB a b = true

instance : DecidableRel strLe := fun a b => instDecidableEqBool (strLeB a b) true

/-- Model of `sort.Strings`: a stable sort by `strLe`. -/
def sortStrings (l : List String) : List String := List.insertionSort strLe l

/-- Splitting a character list on a separator character (auxiliary). -/
def splitChAux (c : Char) : List Char → List Char → List (List Char)
  | [], acc => [acc.reverse]
  | x :: xs, acc =>
    if x = c then acc.reverse :: splitChAux c xs [] else splitChAux c xs (x :: acc)

/-- Model of `strings.Split(s, sep)` for a one-character separator (the only
separators the generator uses are "/", "." and "_"). -/
def splitCh (c : Char) (s : String) : List String :=
  (splitChAux c s.data []).map String.mk

/-- Model of `strings.Contains(s, sub)` for a one-character needle. -/
def containsCh (c : Char) (s : String) : Bool := s.data.contains c

/-- Model of `strings.ReplaceAll(s, old, new)` for one-character arguments. -/
def replaceCh (old new : Char) (s : String) : String :=
  String.mk (s.data.map (fun c => if c = old then new else c))

/-- Boolean prefix test on character lists. -/
def isPre : List Char → List Char → Bool
  | [], _ => true
  | _ :: _, [] => false
  | a :: as, b :: bs => a == b && isPre as bs

/-- Model of `strings.HasPrefix(s, p)` (byte prefix and character prefix
agree on valid UTF-8). -/
def goStartsWith (s p : String) : Bool := isPre p.data s.data

/-- ASCII lower-casing of one character; models `strings.ToLower` on the
ASCII identifiers the generator manipulates. -/
def asciiLower (c : Char) : Char :=
  if 65 ≤ c.val ∧ c.val ≤ 90 then Char.ofNat (c.toNat + 32) else c

/-- ASCII upper-casing of one character; models `strings.ToUpper` on ASCII. -/
def asciiUpper (c : Char) : Char :=
  if 97 ≤ c.val ∧ c.val ≤ 122 then Char.ofNat (c.toNat - 32) else c

/-- Model of `strings.ToLower` applied to a whole string. -/
def lowerStr (s : String) : String := String.mk (s.data.map asciiLower)

/-- Concatenation of a list of strings; models `strings.Join(l, "")` and
repeated `+=`. -/
def concatAll : List String → String
  | [] => ""
  | s :: rest => s ++ concatAll rest

/-- Model of `strings.Join(l, sep)`. -/
def joinSep (sep : String) : List String → String
  | [] => ""
  | [s] => s
  | s :: rest => s ++ sep ++ joinSep sep rest

/-- Little-endian decimal digits of a natural number, with enough fuel to
terminate structurally. -/
def decimalAuxF : Nat → Nat → List Char
  | 0, _ => []
  | fuel + 1, n =>
    if n < 10 then [Nat.digitChar n]
    else Nat.digitChar (n % 10) :: decimalAuxF fuel (n / 10)

/-- Model of `fmt.Sprintf("%d", n)` (Go prints the decimal numeral). -/
def decimal (n : Nat) : String := String.mk (decimalAuxF (n + 1) n).reverse

/-- Whitespace test used by the regular-expression models (`\s`, and
`strings.TrimSpace`); ASCII whitespace suffices for generated code. -/
def isSpaceCh (c : Char) : Bool := c = ' ' || c = '\n' || c = '\t' || c = '\r'

/-- Drop leading whitespace. -/
def skipWs (l : List Char) : List Char := l.dropWhile isSpaceCh

/-- Model of `strings.TrimSpace`. -/
def trimSpace (l : List Char) : List Char :=
  ((l.dropWhile isSpaceCh).reverse.dropWhile isSpaceCh).reverse

/-- Word character test (`\w` in the Go regular expressions). -/
def isWordCh (c : Char) : Bool := c.isAlpha || c.isDigit || c = '_'

/-- Characters before the first occurrence of `c`, and the remainder after
it; `none` when `c` does not occur. -/
def takeUntilCh (c : Char) : List Char → Option (List Char × List Char)
  | [] => none
  | x :: xs =>
    if x = c then some ([], xs)
    else match takeUntilCh c xs with
      | none => none
      | some (pre, post) => some (x :: pre, post)

/-- The suffix of `s` after the first occurrence of `marker`; `none` when
`marker` does not occur (models scanning for a literal inside a regular
expression match). -/
def afterFirst (marker : List Char) : List Char → Option (List Char)
  | [] => if marker.isEmpty then some [] else none
  | x :: t =>
    if isPre marker (x :: t) then some ((x :: t).drop marker.length)
    else afterFirst marker t

/-- Maximal leading run satisfying `p`, with the remainder. -/
def spanP (p : Char → Bool) : List Char → List Char × List Char
  | [] => ([], [])
  | x :: xs =>
    if p x then
      let r := spanP p xs
      (x :: r.1, r.2)
    else ([], x :: xs)

/-! ## Document model (openapi.go data declarations) -/

/-- A YAML scalar appearing in an `enum:` list.  The generator only asks
whether the list is non-empty and which of its values are strings, so other
scalar kinds are collapsed into one constructor. -/
inductive YVal where
  | str (s : String)
  | other
deriving DecidableEq

/-- Model of the `Ref` struct: `$ref` value and `type`. -/
structure RefObj where
  refValue : String
  type : String
deriving DecidableEq

/-- Model of the `Parameter` struct; the inline schema struct is flattened
into the three `schema…` fields. -/
structure Param where
  name : String
  inLoc : String
  description : String
  required : Bool
  schemaType : String
  schemaFormat : String
  schemaRef : String
deriving DecidableEq

/-- Model of the `Property` struct.  `addPropsType = some t` models a
non-nil `AdditionalProperties` whose `Type` is `t`. -/
structure PropertyT where
  type : String
  format : String
  description : String
  ref : String
  allOf : List RefObj
  items : Option RefObj
  addPropsType : Option String
  enum : List YVal
deriving DecidableEq

/-- Model of the `Schema` struct.  The `Properties` map is an association
list carried in iteration order. -/
structure SchemaT where
  type : String
  properties : List (String × PropertyT)
  addPropsType : Option String
  description : String
  format : String
  items : Option RefObj
  allOf : List RefObj
  enum : List YVal
deriving DecidableEq

/-- Model of the `Operation` struct.  `requestBody = some content` models a
non-nil `RequestBody` with `content` its media-type map (association list in
iteration order); `responses` maps status codes to such content maps. -/
structure OperationT where
  tags : List String
  summary : String
  operationId : String
  parameters : List Param
  requestBody : Option (List (String × RefObj))
  responses : List (String × List (String × RefObj))
deriving DecidableEq

/-- Model of the `PathItem` struct. -/
structure PathItemT where
  post : Option OperationT
  get : Option OperationT
  put : Option OperationT
  delete : Option OperationT
deriving DecidableEq

/-- Model of the decoded `OpenAPI` document: the `paths` and
`components.schemas` maps as association lists in iteration order. -/
structure Doc where
  paths : List (String × PathItemT)
  schemas : List (String × SchemaT)
deriving DecidableEq

/-! ## openapi.go functions -/

/-- Model of `cleanRef`: the portion of the reference after the last "/". -/
def cleanRef (ref : String) : String := (splitCh '/' ref).getLastD ""

/-- The namespace-stripping idiom repeated throughout the sources: when the
name contains ".", keep only the portion after the last ".". -/
def stripDot (s : String) : String :=
  if containsCh '.' s then (splitCh '.' s).getLastD "" else s

/-- Model of `Property.IsRequired`: the source returns `false`
unconditionally. -/
def PropertyT.IsRequired (_ : PropertyT) : Bool := false

/-- Model of `Property.TypeName(enumTypes)`. -/
def PropertyT.TypeName (p : PropertyT) (enumT : String → Bool) : String :=
  if p.ref != "" then
    let typeName := cleanRef p.ref
    if enumT typeName then typeName else stripDot typeName
  else if !p.allOf.isEmpty then
    stripDot (cleanRef (p.allOf.headD ⟨"", ""⟩).refValue)
  else if p.type == "array" && p.items.isSome then
    match p.items with
    | some it =>
      if it.refValue != "" then stripDot (cleanRef it.refValue) ++ "[]"
      else if it.type != "" then
        if it.type == "string" then "string[]"
        else if it.type == "integer" then "number[]"
        else if it.type == "number" then "number[]"
        else if it.type == "boolean" then "boolean[]"
        else "any[]"
      else "any[]"
    | none => "any[]"
  else if p.type == "object" && p.addPropsType == some "string" then
    "\x7b [key: string]: string \x7d"
  else if !p.enum.isEmpty then "string"
  else if p.type == "string" then "string"
  else if p.type == "integer" then "number"
  else if p.type == "number" then "number"
  else if p.type == "boolean" then "boolean"
  else if p.type == "object" then "object"
  else "any"

/-- Model of `getModuleName`: lower-cased first tag, or the fixed default
module `"common"`. -/
def getModuleName (tags : List String) : String :=
  match tags with
  | [] => "common"
  | t :: _ => lowerStr t

/-! ## main.go helpers -/

/-- Upper-case the first character and lower-case the rest of one part;
models `strings.ToUpper(p[:1]) + strings.ToLower(p[1:])` inside `toCamel`. -/
def capLower (p : String) : String :=
  match p.data with
  | [] => p
  | c :: rest => String.mk (asciiUpper c :: rest.map asciiLower)

/-- Model of `toCamel`: split on "_", keep the first part, capitalize the
others, join with no separator. -/
def toCamel (s : String) : String :=
  match splitCh '_' s with
  | [] => ""
  | h :: t => concatAll (h :: t.map capLower)

/-- Model of `getModuleFromSchemaName`: every schema goes to the single
shared module `"types"` regardless of its name. -/
def getModuleFromSchemaName (_ : String) : String := "types"

/-- Model of `generateRequestTypeFromParameters`. -/
def generateRequestTypeFromParameters (parameters : List Param)
    (operationId : String) : String :=
  if parameters.isEmpty then "EmptyRequest"
  else
    let parts := splitCh '_' operationId
    if parts.length < 2 then "EmptyRequest"
    else parts.getD 1 "" ++ "Request"

/-- The TypeScript type of one query parameter inside
`generateRequestInterfaceFromParameters`. -/
def paramTsType (p : Param) : String :=
  if p.schemaRef != "" then cleanRef p.schemaRef
  else if p.schemaType == "string" then "string"
  else if p.schemaType == "integer" then "number"
  else if p.schemaType == "number" then "number"
  else if p.schemaType == "boolean" then "boolean"
  else "any"

/-- One property line of the synthesized request interface (description
comment, dots replaced by underscores, `?` unless required, resolved type). -/
def paramPropertyLine (p : Param) : String :=
  let optional := if p.required then "" else "?"
  let descr :=
    if p.description != "" then "  /**\n   * " ++ p.description ++ "\n   */\n  "
    else ""
  descr ++ replaceCh '.' '_' p.name ++ optional ++ ": " ++ paramTsType p

/-- Model of `generateRequestInterfaceFromParameters`. -/
def generateRequestInterfaceFromParameters (typeName : String)
    (parameters : List Param) : String :=
  if parameters.isEmpty then ""
  else
    let properties :=
      (parameters.filter (fun p => p.inLoc == "query")).map paramPropertyLine
    if properties.isEmpty then ""
    else
      "/**\n * " ++ typeName ++ " */\nexport interface " ++ typeName ++
        " \x7b\n" ++
        concatAll (properties.map (fun pr => "  " ++ pr ++ "\n")) ++ "\x7d\n"

/-- Record handed to the function template; model of `FunctionData`. -/
structure FunctionData where
  summary : String
  functionName : String
  paramType : String
  responseType : String
  method : String
  path : String
deriving DecidableEq

/-- Modelled from the spec: the function template `templates/function.tmpl`
is not under src/ (only its loading site and the three regular expressions
of the import resolver describe it).  Per the spec the formatter embeds the
parameter type in a `@param` documentation line, the wrapped response type
in a `@returns {Promise<...>}` line, and both in the function signature. -/
def renderFunctionText (d : FunctionData) : String :=
  "/**\n * " ++ d.summary ++ "\n * @param \x7b " ++ d.paramType ++
    " \x7d params\n * @returns \x7bPromise<" ++ d.responseType ++
    ">\x7d\n */\nexport function " ++ d.functionName ++ "(params: " ++
    d.paramType ++ "): Promise<" ++ d.responseType ++
    "> \x7b\n  return request<" ++ d.responseType ++ ">(\x27" ++ d.path ++
    "\x27, \x27" ++ d.method ++ "\x27, params)\n\x7d\n"

/-- Model of `renderFunction`: strip namespace prefixes from the parameter
and response types, then render through the function template. -/
def renderFunction (d : FunctionData) : String :=
  renderFunctionText
    { d with paramType := stripDot d.paramType,
             responseType := stripDot d.responseType }

/-- Modelled from the spec: the interface-definition template
`templates/interface-definition.tmpl` is not under src/.  Per the spec it
formats one interface declaration from the schema name, the cleaned type
name and the processed properties (resolved type and required flag); Go
templates iterate a map in sorted key order, so the caller passes the
properties sorted by name.  Optional properties are marked with `?`. -/
def renderInterfaceText (schemaName typeName : String)
    (props : List (String × String × Bool)) : String :=
  "/**\n * " ++ schemaName ++ " */\nexport interface " ++ typeName ++
    " \x7b\n" ++
    concatAll (props.map (fun q =>
      "  " ++ q.1 ++ (if q.2.2 then "" else "?") ++ ": " ++ q.2.1 ++ "\n")) ++
    "\x7d\n"

/-! ## Association-list operations (models of Go map reads and writes) -/

/-- Model of a Go map write `m[k] = v`: replace the entry in place when the
key is present, otherwise append.  Keeps key-nodup association lists
key-nodup and leaves iteration order otherwise unchanged. -/
def assocSet {α : Type} (l : List (String × α)) (k : String) (v : α) :
    List (String × α) :=
  if l.any (fun p => p.1 == k) then
    l.map (fun p => if p.1 == k then (k, v) else p)
  else l ++ [(k, v)]

/-- Model of `m[k] = f(m[k])` with a default for a missing key (used for the
nested `functionsByModule` map). -/
def assocUpdate {α : Type} (l : List (String × α)) (k : String) (f : α → α)
    (dflt : α) : List (String × α) :=
  if l.any (fun p => p.1 == k) then
    l.map (fun p => if p.1 == k then (k, f p.2) else p)
  else l ++ [(k, f dflt)]

/-- Sorted view of an association list: the sorted key list paired with the
map's values.  Models iterating a Go map through a sorted key slice (and Go
`text/template` iterating a map, which visits keys in sorted order). -/
def sortByKey {α : Type} (l : List (String × α)) : List (String × α) :=
  (sortStrings (l.map Prod.fst)).filterMap
    (fun k => (List.lookup k l).map (fun v => (k, v)))

/-- First-occurrence deduplication; models collecting into a `map[string]bool`
guarded append (`uniqueInterfaces` / `usedEnums`). -/
def dedupKeepFirst (l : List String) : List String :=
  l.foldl (fun acc x => if acc.contains x then acc else acc ++ [x]) []

/-- Collect-distinct-then-sort; models building a string set in a Go map and
handing its keys to `sort.Strings`. -/
def sortedDedup (l : List String) : List String := sortStrings (dedupKeepFirst l)

/-! ## Enum classification and interface rendering (main.go) -/

/-- Model of the `enumTypes` cache: a schema name is an enum type iff some
schema with that name has a non-empty `enum` list.  The cache is built from
the full schema collection before any property is resolved. -/
def enumTypesOf (schemas : List (String × SchemaT)) : String → Bool :=
  fun name => schemas.any (fun p => p.1 == name && !p.2.enum.isEmpty)

/-- The processed properties handed to the interface template: each property
key with its resolved type name and required flag, in sorted key order (the
order Go `text/template` visits a map). -/
def processedPropsOf (schema : SchemaT) (enumT : String → Bool) :
    List (String × String × Bool) :=
  (sortByKey schema.properties).map
    (fun q => (q.1, q.2.TypeName enumT, q.2.IsRequired))

/-- Model of `renderInterface`: enum schemas render to the empty string (they
are emitted in the separate enum file); otherwise the interface template is
applied to the cleaned type name and the processed properties. -/
def renderInterface (schemaName : String) (schema : SchemaT)
    (enumT : String → Bool) : String :=
  let typeName := stripDot (cleanRef ("#/" ++ schemaName))
  if !schema.enum.isEmpty then ""
  else renderInterfaceText schemaName typeName (processedPropsOf schema enumT)

/-! ## Regular-expression models (import and enum discovery) -/

/-- Model of the Go regular expression
`@param\s*\{\s*([^}]+)\s*\}\s*params` applied with `FindStringSubmatch`
(first match, anchored at the first `@param` occurrence, which is the only
one in a rendered function), capture trimmed by the caller. -/
def matchParamPattern (code : String) : Option String :=
  match afterFirst "@param".data code.data with
  | none => none
  | some r1 =>
    match skipWs r1 with
    | '\x7b' :: r2 =>
      match takeUntilCh '\x7d' r2 with
      | none => none
      | some (inner, rest) =>
        if inner.isEmpty then none
        else if isPre "params".data (skipWs rest) then
          some (String.mk (trimSpace inner))
        else none
    | _ => none

/-- Model of the Go regular expression `@returns\s*\{Promise<([^>]+)>\}`
applied with `FindStringSubmatch`. -/
def matchReturnsPattern (code : String) : Option String :=
  match afterFirst "@returns".data code.data with
  | none => none
  | some r1 =>
    match skipWs r1 with
    | '\x7b' :: r2 =>
      if isPre "Promise<".data r2 then
        match takeUntilCh '>' (r2.drop 8) with
        | none => none
        | some (inner, rest) =>
          if inner.isEmpty then none
          else
            match rest with
            | '\x7d' :: _ => some (String.mk (trimSpace inner))
            | _ => none
      else none
    | _ => none

/-- Model of the Go regular expression
`function\s+\w+\(params:\s*([^)]+)\):\s*Promise<([^>]+)>` applied with
`FindStringSubmatch`; on success yields both captures, trimmed. -/
def matchSigPattern (code : String) : Option (String × String) :=
  match afterFirst "function".data code.data with
  | none => none
  | some r1 =>
    match r1 with
    | c :: _ =>
      if isSpaceCh c then
        let r2 := skipWs r1
        let w := spanP isWordCh r2
        if w.1.isEmpty then none
        else if isPre "(params:".data w.2 then
          match takeUntilCh ')' (skipWs (w.2.drop 8)) with
          | none => none
          | some (p1, r3) =>
            if p1.isEmpty then none
            else
              match r3 with
              | ':' :: r4 =>
                if isPre "Promise<".data (skipWs r4) then
                  match takeUntilCh '>' ((skipWs r4).drop 8) with
                  | none => none
                  | some (p2, _) =>
                    if p2.isEmpty then none
                    else some (String.mk (trimSpace p1), String.mk (trimSpace p2))
                else none
              | _ => none
        else none
      else none
    | [] => none

/-- Model of `extractUsedTypes`: the set of type names any of the three
patterns discovers in one rendered function, as a list. -/
def extractUsedTypes (funcCode : String) : List String :=
  (matchParamPattern funcCode).toList ++ (matchReturnsPattern funcCode).toList ++
    (match matchSigPattern funcCode with
     | none => []
     | some (a, b) => [a, b])

/-- One anchored attempt of the Go regular expression
`\w+\??:\s*([A-Z][a-zA-Z_]*)(?:\[\])?` used by `extractUsedEnums`; on
success yields the capture and the remainder after it. -/
def tryEnumMatchAt (s : List Char) : Option (String × List Char) :=
  let w := spanP isWordCh s
  if w.1.isEmpty then none
  else
    let r2 := match w.2 with
      | '?' :: t => t
      | t => t
    match r2 with
    | ':' :: r3 =>
      match skipWs r3 with
      | c :: r5 =>
        if 65 ≤ c.val ∧ c.val ≤ 90 then
          let t := spanP (fun x => x.isAlpha || x = '_') r5
          some (String.mk (c :: t.1), t.2)
        else none
      | [] => none
    | _ => none

/-- Scan for all non-overlapping matches of the enum-usage pattern. -/
def scanEnumMatches : Nat → List Char → List String
  | 0, _ => []
  | _, [] => []
  | fuel + 1, s =>
    match tryEnumMatchAt s with
    | some (cap, rest) => cap :: scanEnumMatches fuel rest
    | none => scanEnumMatches fuel (s.drop 1)

/-- All captures of the enum-usage pattern in one rendered interface. -/
def enumMatchesOf (code : String) : List String :=
  scanEnumMatches code.data.length code.data

/-- Model of `extractUsedEnums`: every enum type name matched in any of the
module's interface codes, collected as a set and sorted. -/
def extractUsedEnums (interfaces : List (String × String))
    (enumT : String → Bool) : List String :=
  sortedDedup (((interfaces.map Prod.snd).map enumMatchesOf).flatten.filter enumT)

/-! ## Import generation (main.go) -/

/-- Import statement data; model of `ImportData`. -/
structure ImportData where
  module : String
  interfaces : List String
deriving DecidableEq

/-- The cleaned name of a declared interface inside `generateImports`
(`cleanRef("#/" + name)` followed by the namespace-stripping idiom). -/
def cleanIfaceName (originalName : String) : String :=
  stripDot (cleanRef ("#/" ++ originalName))

/-- Model of `generateImports`: for an API module, the needed interfaces are
the cleaned names of the shared-module declarations that some rendered
function of the module uses, deduplicated and sorted; the `types` module
itself imports nothing. -/
def generateImports (moduleName : String)
    (typesInterfaces : List (String × String)) (functions : List String) :
    List ImportData :=
  let usedInterfaces := functions.foldl (fun acc f => acc ++ extractUsedTypes f) []
  if moduleName != "types" then
    if typesInterfaces.isEmpty then []
    else
      let needed := dedupKeepFirst
        (((typesInterfaces.map Prod.fst).map cleanIfaceName).filter
          (fun c => usedInterfaces.contains c))
      if needed.isEmpty then [] else [⟨"types", sortStrings needed⟩]
  else []

/-! ## Operation synthesis (main.go main loop) -/

/-- The first content entry with a non-empty `$ref`, in iteration order;
models `for _, c := range Content { if c.Schema.RefValue != "" { ...; break } }`. -/
def firstNonEmptyRef (content : List (String × RefObj)) : Option String :=
  content.findSome? (fun q => if q.2.refValue == "" then none else some q.2.refValue)

/-- The parameter type of one operation: the cleaned first request-body
reference, else the ad-hoc request type when parameters exist, else the
empty-request marker. -/
def paramTypeOf (op : OperationT) : String :=
  match op.requestBody with
  | some content =>
    match firstNonEmptyRef content with
    | some rv => cleanRef rv
    | none => "EmptyRequest"
  | none =>
    if 0 < op.parameters.length then
      generateRequestTypeFromParameters op.parameters op.operationId
    else "EmptyRequest"

/-- The response type of one operation: the cleaned first reference of the
"200" response content, else the empty-response marker. -/
def responseTypeOf (op : OperationT) : String :=
  match List.lookup "200" op.responses with
  | some content =>
    match firstNonEmptyRef content with
    | some rv => cleanRef rv
    | none => "EmptyReply"
  | none => "EmptyReply"

/-- The summary of one operation.  When the declared summary is empty and
tags exist, the source indexes `strings.Split(OperationID, "_")[1]`; an
identifier with fewer than two parts makes that index panic, modelled as
`none`. -/
def summaryOf (op : OperationT) : Option String :=
  if op.summary == "" && !op.tags.isEmpty then
    match (splitCh '_' op.operationId).get? 1 with
    | none => none
    | some p => some (p ++ " " ++ joinSep ", " op.tags)
  else some op.summary

/-- The base function name of one operation:
`toCamel(strings.Split(OperationID, "_")[1])` with the first character
lower-cased.  Both the index and the `fnName[:1]` slice panic on
out-of-range input, modelled as `none`. -/
def fnBaseOf (operationId : String) : Option String :=
  match (splitCh '_' operationId).get? 1 with
  | none => none
  | some p =>
    match (toCamel p).data with
    | [] => none
    | c :: rest => some (String.mk (asciiLower c :: rest))

/-- The membership test of the collision loop: does any processed key start
with `module_fnName_`? -/
def collides (processed : List String) (moduleName fnName : String) : Bool :=
  processed.any (fun key => goStartsWith key (moduleName ++ "_" ++ fnName ++ "_"))

/-- The collision loop with fuel: while the candidate collides, increment
the counter and retry `originalFnName` with the counter appended. -/
def resolveFnNameAux (moduleName origName : String) :
    Nat → List String → String → Nat → String
  | 0, _, fnName, _ => fnName
  | fuel + 1, processed, fnName, counter =>
    if collides processed moduleName fnName then
      resolveFnNameAux moduleName origName fuel processed
        (origName ++ decimal (counter + 1)) (counter + 1)
    else fnName

/-- Model of the collision-resolution loop of main.go.  The Go loop always
terminates: each processed key blocks at most one candidate (distinct
decimal suffixes followed by "_" are never prefixes of one another), so
among the first `n + 1` candidates over `n` keys one is free; the fuel
`n + 2` therefore never runs out. -/
def resolveFnName (processed : List String) (moduleName fnName : String) : String :=
  resolveFnNameAux moduleName fnName (processed.length + 2) processed fnName 1

/-- Mutable state of the operation-processing loop. -/
structure SynthState where
  processed : List String
  functionsByModule : List (String × List (String × String))
  functionOrder : List (String × Nat)
  globalOrder : Nat
deriving DecidableEq

/-- Processing of one operation (one iteration of the inner loop of the
second path pass); `none` models a Go panic. -/
def processOp (path method : String) (st : SynthState) (op : OperationT) :
    Option SynthState :=
  if op.operationId == "" then some st
  else
    let moduleName := getModuleName op.tags
    let paramType := paramTypeOf op
    let responseType := responseTypeOf op
    match summaryOf op, fnBaseOf op.operationId with
    | some summary, some base =>
      let fnName := resolveFnName st.processed moduleName base
      let uniqueKey := moduleName ++ "_" ++ fnName ++ "_" ++ method ++ "_" ++ path
      if st.processed.contains uniqueKey then some st
      else
        let funcCode := renderFunction
          ⟨summary, fnName, paramType, responseType, method, path⟩
        some ⟨st.processed ++ [uniqueKey],
          assocUpdate st.functionsByModule moduleName
            (fun fns => assocSet fns fnName funcCode) [],
          assocSet st.functionOrder fnName (st.globalOrder + 1),
          st.globalOrder + 1⟩
    | _, _ => none

/-- The method order of the second path pass (POST, GET, PUT, DELETE). -/
def opsOfPathMain (item : PathItemT) : List (String × Option OperationT) :=
  [("POST", item.post), ("GET", item.get), ("PUT", item.put),
   ("DELETE", item.delete)]

/-- Processing of all operations of one path in the second pass. -/
def processPath (paths : List (String × PathItemT)) (st : SynthState)
    (path : String) : Option SynthState :=
  match List.lookup path paths with
  | none => some st
  | some item =>
    (opsOfPathMain item).foldlM
      (fun st' mo =>
        match mo.2 with
        | none => some st'
        | some op => processOp path mo.1 st' op) st

/-- Mutable state of the request-type generation pass. -/
structure ReqGenState where
  generatedRequestTypes : List String
  interfaces : List (String × String)
deriving DecidableEq

/-- Processing of one operation in the request-type generation pass: for an
operation with parameters and no request body, synthesize the ad-hoc request
interface into the shared `types` interface map, deduplicated by name. -/
def reqGenOp (st : ReqGenState) (op : OperationT) : ReqGenState :=
  if op.parameters.isEmpty then st
  else
    match op.requestBody with
    | some _ => st
    | none =>
      let requestTypeName :=
        generateRequestTypeFromParameters op.parameters op.operationId
      if requestTypeName != "EmptyRequest" &&
          !(st.generatedRequestTypes.contains requestTypeName) then
        let st' : ReqGenState :=
          ⟨st.generatedRequestTypes ++ [requestTypeName], st.interfaces⟩
        let requestInterface :=
          generateRequestInterfaceFromParameters requestTypeName op.parameters
        if requestInterface != "" then
          ⟨st'.generatedRequestTypes,
           assocSet st'.interfaces requestTypeName requestInterface⟩
        else st'
      else st

/-- The method order of the request-type generation pass
(GET, DELETE, PUT, POST). -/
def opsOfPathReq (item : PathItemT) : List (String × Option OperationT) :=
  [("GET", item.get), ("DELETE", item.delete), ("PUT", item.put),
   ("POST", item.post)]

/-- Processing of all operations of one path in the request-type pass. -/
def reqGenPath (paths : List (String × PathItemT)) (st : ReqGenState)
    (path : String) : ReqGenState :=
  match List.lookup path paths with
  | none => st
  | some item =>
    (opsOfPathReq item).foldl
      (fun st' mo =>
        match mo.2 with
        | none => st'
        | some op => reqGenOp st' op) st

/-! ## Whole-run output (emission driver) -/

/-- One collected enum; model of `EnumData`. -/
structure EnumData where
  schemaName : String
  typeName : String
  enumValues : List String
deriving DecidableEq

/-- The rendered content of one API module: its function codes in emission
order and its import statements. -/
structure ModuleOut where
  functions : List String
  imports : List ImportData
deriving DecidableEq

/-- The rendered output of one run, per module: the shared `types` interface
file data (sorted declarations and used enums), the enum file data, and each
non-empty API module's file data, keyed by module name in sorted order. -/
structure Output where
  typesInterfaces : List (String × String)
  usedEnums : List String
  enums : List EnumData
  apiModules : List (String × ModuleOut)
deriving DecidableEq

/-- The string values of an enum list (non-string YAML values are dropped). -/
def yvalStrings (l : List YVal) : List String :=
  l.filterMap (fun v => match v with | .str s => some s | .other => none)

/-- The interface map of the shared module after the schema pass: each
non-enum schema's rendered interface, keyed by schema name. -/
def interfacesAOf (d : Doc) : List (String × String) :=
  d.schemas.foldl
    (fun acc q =>
      let code := renderInterface q.1 q.2 (enumTypesOf d.schemas)
      if code == "" then acc else assocSet acc q.1 code) []

/-- The deterministically sorted path list both passes iterate. -/
def sortedPathsOf (d : Doc) : List String := sortStrings (d.paths.map Prod.fst)

/-- The shared interface map after the request-type generation pass. -/
def interfacesBOf (d : Doc) : List (String × String) :=
  ((sortedPathsOf d).foldl (reqGenPath d.paths) ⟨[], interfacesAOf d⟩).interfaces

/-- The synthesis state after the second path pass; `none` models a panic. -/
def synthStateOf (d : Doc) : Option SynthState :=
  (sortedPathsOf d).foldlM (processPath d.paths) ⟨[], [], [], 0⟩

/-- The collected enums, one per schema with a non-empty enum list, values
sorted, in schema iteration order. -/
def allEnumsOf (d : Doc) : List EnumData :=
  d.schemas.filterMap (fun q =>
    if q.2.enum.isEmpty then none
    else some ⟨q.1, cleanRef ("#/" ++ q.1), sortStrings (yvalStrings q.2.enum)⟩)

/-- The order the enum file lists enums in (`sort.Slice` by `TypeName`,
modelled as a stable sort). -/
def enumLe (a b : EnumData) : Prop := strLe a.typeName b.typeName

instance : DecidableRel enumLe := fun a b => instDecidableEqBool (strLeB a.typeName b.typeName) true

/-- The enum file data: all enums sorted by type name. -/
def enumsOutOf (d : Doc) : List EnumData := List.insertionSort enumLe (allEnumsOf d)

/-- The emission order of one module's functions: sorted by name, ties (which
cannot arise, names being map keys) by discovery order. -/
def fnItemLe (a b : String × Nat) : Prop :=
  (if a.1 == b.1 then decide (a.2 ≤ b.2) else strLeB a.1 b.1) = true

instance : DecidableRel fnItemLe := fun a b =>
  instDecidableEqBool (if a.1 == b.1 then decide (a.2 ≤ b.2) else strLeB a.1 b.1) true

/-- The rendered function list of one module, in emission order. -/
def moduleFunctions (fns : List (String × String))
    (functionOrder : List (String × Nat)) : List String :=
  let items := fns.map (fun p => (p.1, (List.lookup p.1 functionOrder).getD 0))
  (List.insertionSort fnItemLe items).filterMap (fun it => List.lookup it.1 fns)

/-- The per-module API file data of one run, keyed by module name in sorted
order; a module with no functions produces no entry (no output artifact). -/
def apiModulesOf (st : SynthState) (typesInterfaces : List (String × String)) :
    List (String × ModuleOut) :=
  (sortStrings (st.functionsByModule.map Prod.fst)).filterMap
    (fun m =>
      (List.lookup m st.functionsByModule).bind (fun fns =>
        if fns.isEmpty then none
        else
          let functions := moduleFunctions fns st.functionOrder
          some (m, ⟨functions, generateImports m typesInterfaces functions⟩)))

/-- The full synthesis: one run of the generator over a decoded document,
producing the rendered output of every module; `none` models a Go panic
aborting the run. -/
def run (d : Doc) : Option Output :=
  let enumT := enumTypesOf d.schemas
  let interfacesB := interfacesBOf d
  match synthStateOf d with
  | none => none
  | some st =>
    some ⟨sortByKey interfacesB,
      extractUsedEnums interfacesB enumT,
      enumsOutOf d,
      apiModulesOf st interfacesB⟩

/-! ## Order properties of the sorting relations -/

theorem charEqOfToNat {c d : Char} (h : c.toNat = d.toNat) : c = d :=
  Char.eq_of_val_eq (UInt32.ext h)

theorem listLeB_total : ∀ a b : List Char, listLeB a b = true ∨ listLeB b a = true
  | [], _ => Or.inl rfl
  | _ :: _, [] => Or.inr rfl
  | a :: as, b :: bs => by
    rcases Nat.lt_trichotomy a.toNat b.toNat with h | h | h
    · left; simp [listLeB, h]
    · have h1 : ¬ a.toNat < b.toNat := by omega
      have h2 : ¬ b.toNat < a.toNat := by omega
      simpa [listLeB, h1, h2] using listLeB_total as bs
    · right; simp [listLeB, h]

theorem listLeB_head_le {a b : Char} {as bs : List Char}
    (h : listLeB (a :: as) (b :: bs) = true) : a.toNat ≤ b.toNat := by
  by_contra hlt
  have h2 : b.toNat < a.toNat := by omega
  have h1 : ¬ a.toNat < b.toNat := by omega
  simp [listLeB, h1, h2] at h

theorem listLeB_trans :
    ∀ a b c : List Char, listLeB a b = true → listLeB b c = true →
      listLeB a c = true
  | [], _, _, _, _ => rfl
  | _ :: _, [], _, h, _ => by simp [listLeB] at h
  | _ :: _, _ :: _, [], _, h => by simp [listLeB] at h
  | x :: xs, y :: ys, z :: zs, h1, h2 => by
    have hxy := listLeB_head_le h1
    have hyz := listLeB_head_le h2
    rcases Nat.lt_or_ge x.toNat z.toNat with hxz | hxz
    · simp [listLeB, hxz]
    · have hxez : x.toNat = z.toNat := by omega
      have hxey : x.toNat = y.toNat := by omega
      have hyez : y.toNat = z.toNat := by omega
      have e1 : ¬ x.toNat < y.toNat := by omega
      have e2 : ¬ y.toNat < x.toNat := by omega
      have e3 : ¬ y.toNat < z.toNat := by omega
      have e4 : ¬ z.toNat < y.toNat := by omega
      have e5 : ¬ x.toNat < z.toNat := by omega
      have e6 : ¬ z.toNat < x.toNat := by omega
      simp [listLeB, e1, e2] at h1
      simp [listLeB, e3, e4] at h2
      simpa [listLeB, e5, e6] using listLeB_trans xs ys zs h1 h2

theorem listLeB_antisymm :
    ∀ a b : List Char, listLeB a b = true → listLeB b a = true → a = b
  | [], [], _, _ => rfl
  | _ :: _, [], h, _ => by simp [listLeB] at h
  | [], _ :: _, _, h => by simp [listLeB] at h
  | x :: xs, y :: ys, h1, h2 => by
    have hxy := listLeB_head_le h1
    have hyx := listLeB_head_le h2
    have hx : x = y := charEqOfToNat (by omega)
    have e1 : ¬ x.toNat < y.toNat := by omega
    have e2 : ¬ y.toNat < x.toNat := by omega
    simp [listLeB, e1, e2] at h1 h2
    rw [hx, listLeB_antisymm xs ys h1 h2]

instance : IsTotal String strLe := ⟨fun a b => listLeB_total a.data b.data⟩

instance : IsTrans String strLe :=
  ⟨fun a b c h1 h2 => listLeB_trans a.data b.data c.data h1 h2⟩

instance : IsAntisymm String strLe :=
  ⟨fun a b h1 h2 => String.ext (listLeB_antisymm a.data b.data h1 h2)⟩

theorem sortStrings_perm (l : List String) : (sortStrings l).Perm l :=
  List.perm_insertionSort strLe l

theorem sortStrings_sorted (l : List String) : List.Sorted strLe (sortStrings l) :=
  List.sorted_insertionSort strLe l

theorem sortStrings_eq_of_perm {l₁ l₂ : List String} (h : l₁.Perm l₂) :
    sortStrings l₁ = sortStrings l₂ :=
  List.eq_of_perm_of_sorted
    ((sortStrings_perm l₁).trans (h.trans (sortStrings_perm l₂).symm))
    (sortStrings_sorted l₁) (sortStrings_sorted l₂)

theorem sortStrings_mem {a : String} {l : List String} :
    a ∈ sortStrings l ↔ a ∈ l :=
  (sortStrings_perm l).mem_iff

theorem sortStrings_nodup {l : List String} (h : l.Nodup) :
    (sortStrings l).Nodup :=
  ((sortStrings_perm l).nodup_iff).mpr h

theorem sortStrings_isEmpty_iff {l : List String} :
    sortStrings l = [] ↔ l = [] := by
  constructor
  · intro h
    have := (sortStrings_perm l).length_eq
    rw [h] at this
    exact List.length_eq_zero.mp this.symm
  · intro h; rw [h]; rfl

/-! ## List bookkeeping lemmas -/

theorem dkfStep_mem (acc : List String) (y x : String) :
    x ∈ (if acc.contains y then acc else acc ++ [y]) ↔ x ∈ acc ∨ x = y := by
  by_cases h : acc.contains y = true
  · have hy : y ∈ acc := List.elem_iff.mp h
    rw [if_pos h]
    constructor
    · exact Or.inl
    · rintro (hx | rfl)
      · exact hx
      · exact hy
  · rw [if_neg h]
    simp only [List.mem_append, List.mem_singleton]

theorem dkf_aux_mem :
    ∀ (l : List String) (acc : List String) (x : String),
      x ∈ l.foldl (fun a y => if a.contains y then a else a ++ [y]) acc ↔
        x ∈ acc ∨ x ∈ l
  | [], acc, x => by simp
  | y :: t, acc, x => by
    rw [List.foldl_cons, dkf_aux_mem t _ x, dkfStep_mem acc y x]
    simp only [List.mem_cons]
    tauto

theorem dedupKeepFirst_mem {x : String} {l : List String} :
    x ∈ dedupKeepFirst l ↔ x ∈ l := by
  rw [dedupKeepFirst, dkf_aux_mem]
  simp

theorem dkf_aux_nodup :
    ∀ (l : List String) (acc : List String), acc.Nodup →
      (l.foldl (fun a y => if a.contains y then a else a ++ [y]) acc).Nodup
  | [], _, h => h
  | y :: t, acc, h => by
    rw [List.foldl_cons]
    apply dkf_aux_nodup t
    by_cases hc : acc.contains y = true
    · rw [if_pos hc]; exact h
    · have hy : y ∉ acc := fun hm => hc (List.elem_iff.mpr hm)
      rw [if_neg hc]
      exact List.Nodup.append h (List.nodup_singleton y)
        (fun a ha hb => hy ((List.mem_singleton.mp hb) ▸ ha))

theorem dedupKeepFirst_nodup (l : List String) : (dedupKeepFirst l).Nodup :=
  dkf_aux_nodup l [] List.nodup_nil

theorem sortedDedup_mem {x : String} {l : List String} :
    x ∈ sortedDedup l ↔ x ∈ l := by
  rw [sortedDedup, sortStrings_mem, dedupKeepFirst_mem]

theorem sortedDedup_eq_of_mem_iff {l₁ l₂ : List String}
    (h : ∀ x, x ∈ l₁ ↔ x ∈ l₂) : sortedDedup l₁ = sortedDedup l₂ := by
  have hp : (sortedDedup l₁).Perm (sortedDedup l₂) := by
    refine (List.perm_ext_iff_of_nodup ?_ ?_).mpr ?_
    · exact sortStrings_nodup (dedupKeepFirst_nodup l₁)
    · exact sortStrings_nodup (dedupKeepFirst_nodup l₂)
    · intro a
      simp only [sortedDedup, sortStrings_mem, dedupKeepFirst_mem]
      exact h a
  exact List.eq_of_perm_of_sorted hp (sortStrings_sorted _) (sortStrings_sorted _)

theorem mem_foldl_append {α β : Type} (g : α → List β) :
    ∀ (l : List α) (acc : List β) (x : β),
      x ∈ l.foldl (fun a f => a ++ g f) acc ↔ x ∈ acc ∨ ∃ f ∈ l, x ∈ g f
  | [], acc, x => by simp
  | f :: t, acc, x => by
    rw [List.foldl_cons, mem_foldl_append g t _ x]
    simp only [List.mem_append, List.mem_cons]
    constructor
    · rintro ((h | h) | ⟨f', hf', hx⟩)
      · exact Or.inl h
      · exact Or.inr ⟨f, Or.inl rfl, h⟩
      · exact Or.inr ⟨f', Or.inr hf', hx⟩
    · rintro (h | ⟨f', (rfl | hf'), hx⟩)
      · exact Or.inl (Or.inl h)
      · exact Or.inl (Or.inr hx)
      · exact Or.inr ⟨f', hf', hx⟩

theorem lookup_mem {α : Type} {k : String} {v : α} :
    ∀ {l : List (String × α)}, List.lookup k l = some v → (k, v) ∈ l
  | [], h => by simp [List.lookup] at h
  | (a, b) :: t, h => by
    cases hk : (k == a) with
    | true =>
      have hka : k = a := by simpa using hk
      simp only [List.lookup, hk] at h
      subst hka
      injection h with h
      subst h
      exact List.mem_cons_self _ _
    | false =>
      simp only [List.lookup, hk] at h
      exact List.mem_cons_of_mem _ (lookup_mem h)

theorem lookup_isSome_of_mem_keys {α : Type} {k : String} :
    ∀ {l : List (String × α)}, k ∈ l.map Prod.fst →
      ∃ v, List.lookup k l = some v
  | [], h => by simp at h
  | (a, b) :: t, h => by
    cases hk : (k == a) with
    | true => exact ⟨b, by simp only [List.lookup, hk]⟩
    | false =>
      have hm : k ∈ t.map Prod.fst := by
        rcases List.mem_cons.mp h with h1 | h1
        · exact absurd (by simpa using h1)
            (by simpa using beq_eq_false_iff_ne.mp hk)
        · exact h1
      obtain ⟨v, hv⟩ := lookup_isSome_of_mem_keys hm
      exact ⟨v, by simp only [List.lookup, hk]; exact hv⟩

theorem lookup_eq_none_of_not_mem_keys {α : Type} {k : String} :
    ∀ {l : List (String × α)}, k ∉ l.map Prod.fst → List.lookup k l = none
  | [], _ => rfl
  | (a, b) :: t, h => by
    have hk : (k == a) = false := by
      apply beq_eq_false_iff_ne.mpr
      intro hkb
      exact h (by simp [List.map_cons, hkb])
    simp only [List.lookup, hk]
    exact lookup_eq_none_of_not_mem_keys
      (fun hm => h (by simp only [List.map_cons, List.mem_cons]; exact Or.inr hm))

theorem lookup_eq_some_of_mem_nodup {α : Type} {k : String} {v : α} :
    ∀ {l : List (String × α)}, (k, v) ∈ l → (l.map Prod.fst).Nodup →
      List.lookup k l = some v
  | [], h, _ => by simp at h
  | (a, b) :: t, h, hn => by
    rcases List.mem_cons.mp h with h1 | h1
    · injection h1 with h1 h2
      subst h1; subst h2
      simp [List.lookup]
    · have hka : (k == a) = false := by
        apply beq_eq_false_iff_ne.mpr
        intro hka
        subst hka
        have hm : k ∈ t.map Prod.fst := List.mem_map.mpr ⟨(k, v), h1, rfl⟩
        rw [List.map_cons, List.nodup_cons] at hn
        exact hn.1 hm
      simp only [List.lookup, hka]
      exact lookup_eq_some_of_mem_nodup h1
        (by rw [List.map_cons, List.nodup_cons] at hn; exact hn.2)

theorem lookup_congr_perm {α : Type} {l₁ l₂ : List (String × α)} (k : String)
    (hp : l₁.Perm l₂) (hn : (l₁.map Prod.fst).Nodup) :
    List.lookup k l₁ = List.lookup k l₂ := by
  have hn₂ : (l₂.map Prod.fst).Nodup := ((hp.map Prod.fst).nodup_iff).mp hn
  cases hv : List.lookup k l₁ with
  | some v =>
    exact (lookup_eq_some_of_mem_nodup (hp.mem_iff.mp (lookup_mem hv)) hn₂).symm
  | none =>
    have hk : k ∉ l₁.map Prod.fst := by
      intro hm
      obtain ⟨v, hv'⟩ := lookup_isSome_of_mem_keys hm
      rw [hv] at hv'; cases hv'
    exact (lookup_eq_none_of_not_mem_keys
      (fun hm => hk ((hp.map Prod.fst).mem_iff.mpr hm))).symm

/-! ## Concrete documents used by witnesses and counterexamples -/

/-- A bodiless, parameterless operation under tag "team". -/
def opTeamList (oid : String) : OperationT := ⟨["team"], "", oid, [], none, []⟩

/-- Three GET operations under tag "team": two share the identifier
Team_List, the third is Team_List2. -/
def docTeam : Doc :=
  ⟨[("/a", ⟨none, some (opTeamList "Team_List"), none, none⟩),
    ("/b", ⟨none, some (opTeamList "Team_List"), none, none⟩),
    ("/c", ⟨none, some (opTeamList "Team_List2"), none, none⟩)], []⟩

/-- Scenario C's required integer query parameter. -/
def pPage : Param := ⟨"page", "query", "", true, "integer", "", ""⟩

/-- Scenario C's optional string query parameter with a dotted name. -/
def pFilter : Param := ⟨"filter.name", "query", "", false, "string", "", ""⟩

/-- Scenario C's operation: query parameters, no request body, identifier
Team_Search. -/
def opScenC : OperationT := ⟨["team"], "search", "Team_Search", [pPage, pFilter], none, []⟩

/-- A single non-query (header) parameter. -/
def pHeaderTok : Param := ⟨"X-Token", "header", "", true, "string", "", ""⟩

/-- An operation whose only parameter is not in the query location. -/
def opHeaderOnly : OperationT := ⟨["team"], "s", "Team_Search", [pHeaderTok], none, []⟩

/-! ## Claim theorems -/

/-- C10: every schema property is rendered not-required: `IsRequired` returns
`false` unconditionally, so the processed required flag handed to the
interface formatter is `false` for every property of every schema. -/
theorem c10_properties_never_required :
    (∀ p : PropertyT, p.IsRequired = false) ∧
    (∀ (schema : SchemaT) (enumT : String → Bool),
      ((processedPropsOf schema enumT).all fun q => !q.2.2) = true) := by
  constructor
  · intro p; rfl
  · intro schema enumT
    rw [List.all_eq_true]
    intro q hq
    rw [processedPropsOf] at hq
    obtain ⟨x, _, rfl⟩ := List.mem_map.mp hq
    rfl

/-- C2: for a property whose type is a reference, if the resolved name (the
portion after the last path separator) is classified as an enum by the
EnumSet, the resolved type name is that name verbatim, with no further
namespace stripping; otherwise the namespace prefix after the last "." is
stripped.  The EnumSet built from the schema collection holds exactly the
schema names carrying a non-empty enum list. -/
theorem c2_enum_reference_precedence (p : PropertyT)
    (schemas : List (String × SchemaT)) (href : p.ref ≠ "") :
    (p.TypeName (enumTypesOf schemas) =
      if enumTypesOf schemas (cleanRef p.ref) = true then cleanRef p.ref
      else stripDot (cleanRef p.ref)) ∧
    (∀ name : String,
      enumTypesOf schemas name = true ↔
        ∃ s, (name, s) ∈ schemas ∧ s.enum ≠ []) := by
  constructor
  · have hb : (p.ref != "") = true := bne_iff_ne.mpr href
    by_cases he : enumTypesOf schemas (cleanRef p.ref) = true
    · simp [PropertyT.TypeName, hb, he]
    · simp [PropertyT.TypeName, hb, he]
  · intro name
    simp only [enumTypesOf, List.any_eq_true]
    constructor
    · rintro ⟨x, hx, hp⟩
      rw [Bool.and_eq_true] at hp
      have h1 : x.1 = name := by simpa using hp.1
      have h2 : x.2.enum ≠ [] := by
        intro he
        rw [he] at hp
        simp at hp
      exact ⟨x.2, by rw [← h1]; exact hx, h2⟩
    · rintro ⟨s, hs, hne⟩
      refine ⟨(name, s), hs, ?_⟩
      have : s.enum.isEmpty = false := by
        cases hen : s.enum with
        | nil => exact absurd hen hne
        | cons a t => rfl
      simp [this]

/-- C9: resolution of array-typed properties: an array of a reference
resolves to the cleaned item name followed by the array marker, an array of
a primitive maps the primitive through the table and appends the marker,
and any other item shape falls back to the wildcard array type. -/
theorem c9_array_type_resolution (p : PropertyT) (it : RefObj)
    (enumT : String → Bool) (h1 : p.ref = "") (h2 : p.allOf = [])
    (h3 : p.type = "array") (h4 : p.items = some it) :
    (it.refValue ≠ "" →
      p.TypeName enumT = stripDot (cleanRef it.refValue) ++ "[]") ∧
    (it.refValue = "" → it.type = "string" → p.TypeName enumT = "string[]") ∧
    (it.refValue = "" → it.type = "integer" → p.TypeName enumT = "number[]") ∧
    (it.refValue = "" → it.type = "number" → p.TypeName enumT = "number[]") ∧
    (it.refValue = "" → it.type = "boolean" → p.TypeName enumT = "boolean[]") ∧
    (it.refValue = "" →
      it.type ∉ (["string", "integer", "number", "boolean"] : List String) →
      p.TypeName enumT = "any[]") := by
  refine ⟨?_, ?_, ?_, ?_, ?_, ?_⟩
  · intro hr
    simp [PropertyT.TypeName, h1, h2, h3, h4, bne_iff_ne.mpr hr]
  · intro hr hs
    simp [PropertyT.TypeName, h1, h2, h3, h4, hr, hs]
  · intro hr hs
    simp [PropertyT.TypeName, h1, h2, h3, h4, hr, hs]
  · intro hr hs
    simp [PropertyT.TypeName, h1, h2, h3, h4, hr, hs]
  · intro hr hs
    simp [PropertyT.TypeName, h1, h2, h3, h4, hr, hs]
  · intro hr hs
    simp only [List.mem_cons, List.mem_singleton, not_or] at hs
    obtain ⟨n1, n2, n3, n4⟩ := hs
    by_cases ht : it.type = ""
    · simp [PropertyT.TypeName, h1, h2, h3, h4, hr, ht]
    · simp [PropertyT.TypeName, h1, h2, h3, h4, hr, bne_iff_ne.mpr ht, n1, n2,
        n3, n4]

/-- A property referencing an enum schema through a namespaced name. -/
def propStatusRef : PropertyT :=
  ⟨"", "", "", "#/components/schemas/api.Status", [], none, none, []⟩

/-- A schema collection declaring the enum schema api.Status. -/
def schemasEnumW : List (String × SchemaT) :=
  [("api.Status", ⟨"string", [], none, "", "", none, [],
    [YVal.str "A", YVal.str "B"]⟩)]

/-- Witness for C2 at a concrete namespaced enum reference. -/
theorem c2_enum_reference_precedence_witness :
    (propStatusRef.TypeName (enumTypesOf schemasEnumW) =
      if enumTypesOf schemasEnumW (cleanRef propStatusRef.ref) = true then
        cleanRef propStatusRef.ref
      else stripDot (cleanRef propStatusRef.ref)) ∧
    (∀ name : String,
      enumTypesOf schemasEnumW name = true ↔
        ∃ s, (name, s) ∈ schemasEnumW ∧ s.enum ≠ []) :=
  c2_enum_reference_precedence propStatusRef schemasEnumW (by decide)

/-- An array item referencing schema Foo. -/
def itemFooRef : RefObj := ⟨"#/components/schemas/Foo", ""⟩

/-- A property typed as an array of references to schema Foo. -/
def propArrFoo : PropertyT := ⟨"array", "", "", "", [], some itemFooRef, none, []⟩

/-- Witness for C9 at a concrete array-of-reference property. -/
theorem c9_array_type_resolution_witness :
    (itemFooRef.refValue ≠ "" →
      propArrFoo.TypeName (fun _ => false) =
        stripDot (cleanRef itemFooRef.refValue) ++ "[]") ∧
    (itemFooRef.refValue = "" → itemFooRef.type = "string" →
      propArrFoo.TypeName (fun _ => false) = "string[]") ∧
    (itemFooRef.refValue = "" → itemFooRef.type = "integer" →
      propArrFoo.TypeName (fun _ => false) = "number[]") ∧
    (itemFooRef.refValue = "" → itemFooRef.type = "number" →
      propArrFoo.TypeName (fun _ => false) = "number[]") ∧
    (itemFooRef.refValue = "" → itemFooRef.type = "boolean" →
      propArrFoo.TypeName (fun _ => false) = "boolean[]") ∧
    (itemFooRef.refValue = "" →
      itemFooRef.type ∉ (["string", "integer", "number", "boolean"] : List String) →
      propArrFoo.TypeName (fun _ => false) = "any[]") :=
  c9_array_type_resolution propArrFoo itemFooRef (fun _ => false) rfl rfl rfl rfl

/-- C6: for an operation with no request body, at least one query-location
parameter and an identifier whose second underscore-part is Action, the
synthesis uses the manufactured request type ActionRequest as the function's
parameter type, and the synthesized interface lists exactly the
query-location parameters, each rendered by the documented rules (dots in
the name replaced by underscores, optional unless required, typed by the
primitive/reference table). -/
theorem c6_adhoc_request_type (op : OperationT) (action : String)
    (hb : op.requestBody = none)
    (ha : (splitCh '_' op.operationId).get? 1 = some action)
    (hq : op.parameters.filter (fun p => p.inLoc == "query") ≠ []) :
    paramTypeOf op = action ++ "Request" ∧
    generateRequestTypeFromParameters op.parameters op.operationId =
      action ++ "Request" ∧
    generateRequestInterfaceFromParameters (action ++ "Request") op.parameters =
      "/**\n * " ++ (action ++ "Request") ++ " */\nexport interface " ++
        (action ++ "Request") ++ " \x7b\n" ++
        concatAll
          (((op.parameters.filter (fun p => p.inLoc == "query")).map
            paramPropertyLine).map (fun pr => "  " ++ pr ++ "\n")) ++
        "\x7d\n" := by
  have hpne : op.parameters ≠ [] := by
    intro he
    rw [he] at hq
    exact hq rfl
  have hie : op.parameters.isEmpty = false := by
    cases hpm : op.parameters with
    | nil => exact absurd hpm hpne
    | cons a t => rfl
  have hgen : generateRequestTypeFromParameters op.parameters op.operationId =
      action ++ "Request" := by
    rw [generateRequestTypeFromParameters, if_neg (by simp [hie])]
    have hlen : ¬ (splitCh '_' op.operationId).length < 2 := by
      intro hlt
      rw [List.get?_eq_none.mpr (by omega)] at ha
      cases ha
    rw [if_neg hlen]
    have : (splitCh '_' op.operationId).getD 1 "" = action := by
      simp [List.getD_eq_getElem?_getD, ← List.get?_eq_getElem?, ha]
    rw [this]
  refine ⟨?_, hgen, ?_⟩
  · rw [paramTypeOf, hb]
    rw [if_pos (List.length_pos.mpr hpne)]
    exact hgen
  · rw [generateRequestInterfaceFromParameters, if_neg (by simp [hie])]
    have hqe : ((op.parameters.filter (fun p => p.inLoc == "query")).map
        paramPropertyLine).isEmpty = false := by
      cases hpm : op.parameters.filter (fun p => p.inLoc == "query") with
      | nil => exact absurd hpm hq
      | cons a t => rfl
    rw [if_neg (by simp [hqe])]

/-- Witness for C6: Scenario C (page required integer, filter.name optional
string, identifier Team_Search). -/
theorem c6_adhoc_request_type_witness :
    paramTypeOf opScenC = "Search" ++ "Request" ∧
    generateRequestTypeFromParameters opScenC.parameters opScenC.operationId =
      "Search" ++ "Request" ∧
    generateRequestInterfaceFromParameters ("Search" ++ "Request")
        opScenC.parameters =
      "/**\n * " ++ ("Search" ++ "Request") ++ " */\nexport interface " ++
        ("Search" ++ "Request") ++ " \x7b\n" ++
        concatAll
          (((opScenC.parameters.filter (fun p => p.inLoc == "query")).map
            paramPropertyLine).map (fun pr => "  " ++ pr ++ "\n")) ++
        "\x7d\n" :=
  c6_adhoc_request_type opScenC "Search" rfl (by decide) (by decide)

/-- C7 counterexample: an operation whose only declared parameter is in the
header location (none in query), with no request body and identifier
Team_Search.  The claim says its function parameter type is the
empty-request marker; the code instead names SearchRequest (while indeed
synthesizing no request interface), so the function refers to a type that
is never declared. -/
theorem c7_counterexample :
    paramTypeOf opHeaderOnly = "SearchRequest" ∧
    paramTypeOf opHeaderOnly ≠ "EmptyRequest" ∧
    generateRequestInterfaceFromParameters
      (generateRequestTypeFromParameters opHeaderOnly.parameters
        opHeaderOnly.operationId) opHeaderOnly.parameters = "" := by
  refine ⟨by decide, by decide, by decide⟩

/-- C7 amended: with declared parameters none of which is in the query
location and no request body, no ad-hoc request interface is synthesized,
but the function's parameter type is ActionRequest (derived from the
identifier), not the empty-request marker. -/
theorem c7_no_query_params (op : OperationT) (action : String)
    (hb : op.requestBody = none) (hp : op.parameters ≠ [])
    (hq : op.parameters.filter (fun p => p.inLoc == "query") = [])
    (ha : (splitCh '_' op.operationId).get? 1 = some action) :
    generateRequestInterfaceFromParameters
      (generateRequestTypeFromParameters op.parameters op.operationId)
      op.parameters = "" ∧
    paramTypeOf op = action ++ "Request" := by
  have hie : op.parameters.isEmpty = false := by
    cases hpm : op.parameters with
    | nil => exact absurd hpm hp
    | cons a t => rfl
  constructor
  · rw [generateRequestInterfaceFromParameters, if_neg (by simp [hie])]
    rw [if_pos (by simp [hq])]
  · rw [paramTypeOf, hb, if_pos (List.length_pos.mpr hp)]
    rw [generateRequestTypeFromParameters, if_neg (by simp [hie])]
    have hlen : ¬ (splitCh '_' op.operationId).length < 2 := by
      intro hlt
      rw [List.get?_eq_none.mpr (by omega)] at ha
      cases ha
    rw [if_neg hlen]
    simp [List.getD_eq_getElem?_getD, ← List.get?_eq_getElem?, ha]

/-- Witness for the amended C7 at the concrete header-parameter operation. -/
theorem c7_no_query_params_witness :
    generateRequestInterfaceFromParameters
      (generateRequestTypeFromParameters opHeaderOnly.parameters
        opHeaderOnly.operationId) opHeaderOnly.parameters = "" ∧
    paramTypeOf opHeaderOnly = "Search" ++ "Request" :=
  c7_no_query_params opHeaderOnly "Search" rfl (by decide) (by decide) (by decide)

theorem moduleFunctions_ne_nil (fns : List (String × String))
    (fo : List (String × Nat)) (h : fns ≠ []) :
    moduleFunctions fns fo ≠ [] := by
  rw [moduleFunctions]
  have hin : fns.map (fun p => (p.1, (List.lookup p.1 fo).getD 0)) ≠ [] := by
    cases hf : fns with
    | nil => exact absurd hf h
    | cons a t => simp [hf]
  have hperm := List.perm_insertionSort fnItemLe
    (fns.map (fun p => (p.1, (List.lookup p.1 fo).getD 0)))
  cases hs : List.insertionSort fnItemLe
      (fns.map (fun p => (p.1, (List.lookup p.1 fo).getD 0))) with
  | nil =>
    rw [hs] at hperm
    exact absurd (List.length_eq_zero.mp hperm.length_eq.symm) hin
  | cons a rest =>
    have ha : a ∈ fns.map (fun p => (p.1, (List.lookup p.1 fo).getD 0)) := by
      rw [← hperm.mem_iff, hs]
      exact List.mem_cons_self a rest
    obtain ⟨p, hp, hpa⟩ := List.mem_map.mp ha
    have hk : a.1 ∈ fns.map Prod.fst := by
      rw [← hpa]
      exact List.mem_map.mpr ⟨p, hp, rfl⟩
    obtain ⟨v, hv⟩ := lookup_isSome_of_mem_keys hk
    simp [List.filterMap_cons, hv]

/-- C8: module partitioning: every schema is placed into the single fixed
shared module "types" regardless of its name; an operation's module is its
lower-cased first tag, or the fixed default "common" with no tags; and a
module that ends the run with no functions contributes no API output
artifact (every emitted module entry carries a non-empty function list). -/
theorem c8_module_partitioning :
    (∀ n, getModuleFromSchemaName n = "types") ∧
    (getModuleName [] = "common") ∧
    (∀ t ts, getModuleName (t :: ts) = lowerStr t) ∧
    (∀ (d : Doc) (out : Output), run d = some out →
      (out.apiModules.all fun q => !q.2.functions.isEmpty) = true) := by
  refine ⟨fun _ => rfl, rfl, fun _ _ => rfl, ?_⟩
  intro d out hrun
  rw [run] at hrun
  cases hs : synthStateOf d with
  | none => rw [hs] at hrun; cases hrun
  | some st =>
    rw [hs] at hrun
    injection hrun with hrun
    subst hrun
    rw [List.all_eq_true]
    intro q hq
    rw [apiModulesOf] at hq
    obtain ⟨m, _, hbind⟩ := List.mem_filterMap.mp hq
    cases hlk : List.lookup m st.functionsByModule with
    | none => rw [hlk] at hbind; cases hbind
    | some fns =>
      rw [hlk] at hbind
      rw [Option.some_bind] at hbind
      by_cases hfe : fns.isEmpty
      · rw [if_pos hfe] at hbind; cases hbind
      · rw [if_neg hfe] at hbind
        injection hbind with hbind
        have hfn : fns ≠ [] := fun he => hfe (by rw [he]; rfl)
        have hne := moduleFunctions_ne_nil fns st.functionOrder hfn
        rw [← hbind]
        simpa using hne

/-- Witness for C8's run clause at the concrete three-operation document. -/
theorem c8_module_partitioning_witness :
    getModuleFromSchemaName "team.Item" = "types" ∧
    getModuleName [] = "common" ∧
    getModuleName ["Team"] = lowerStr "Team" ∧
    (((run docTeam).get (by decide)).apiModules.all
      fun q => !q.2.functions.isEmpty) = true :=
  ⟨c8_module_partitioning.1 "team.Item", c8_module_partitioning.2.1,
    c8_module_partitioning.2.2.1 "Team" [],
    c8_module_partitioning.2.2.2 docTeam ((run docTeam).get (by decide))
      (Option.some_get (by decide)).symm⟩

/-- C5: for every module other than the shared types module, the emitted
list of imports is exactly one import from the types module naming, sorted and
deduplicated, exactly those cleaned declared type names that at least one of
the three discovery patterns finds in some rendered function of the module
(and no import at all when that set is empty); a declared type discovered by
no pattern is never imported. -/
theorem c5_import_minimality (m : String) (ti : List (String × String))
    (fns : List String) (hm : m ≠ "types") :
    ∃ L, generateImports m ti fns =
        (if L.isEmpty then [] else [⟨"types", L⟩]) ∧
      List.Sorted strLe L ∧ L.Nodup ∧
      (∀ t, t ∈ L ↔
        ((∃ pr ∈ ti, cleanIfaceName pr.1 = t) ∧
          ∃ f ∈ fns, t ∈ extractUsedTypes f)) := by
  have hmb : (m != "types") = true := bne_iff_ne.mpr hm
  refine ⟨sortStrings (dedupKeepFirst
    (((ti.map Prod.fst).map cleanIfaceName).filter
      (fun c => (fns.foldl (fun acc f => acc ++ extractUsedTypes f) []).contains c))),
    ?_, sortStrings_sorted _, sortStrings_nodup (dedupKeepFirst_nodup _), ?_⟩
  · rw [generateImports]
    rw [if_pos hmb]
    by_cases hti : ti.isEmpty
    · have hti' : ti = [] := List.isEmpty_iff.mp hti
      subst hti'
      rfl
    · rw [if_neg hti]
      by_cases hne : (dedupKeepFirst
          (((ti.map Prod.fst).map cleanIfaceName).filter
            (fun c => (fns.foldl (fun acc f => acc ++ extractUsedTypes f)
              []).contains c))).isEmpty
      · rw [if_pos hne]
        have : dedupKeepFirst
            (((ti.map Prod.fst).map cleanIfaceName).filter
              (fun c => (fns.foldl (fun acc f => acc ++ extractUsedTypes f)
                []).contains c)) = [] := List.isEmpty_iff.mp hne
        rw [this]
        rfl
      · rw [if_neg hne]
        have h1 : dedupKeepFirst
            (((ti.map Prod.fst).map cleanIfaceName).filter
              (fun c => (fns.foldl (fun acc f => acc ++ extractUsedTypes f)
                []).contains c)) ≠ [] :=
          fun he => hne (by rw [he]; rfl)
        have h2 : sortStrings (dedupKeepFirst
            (((ti.map Prod.fst).map cleanIfaceName).filter
              (fun c => (fns.foldl (fun acc f => acc ++ extractUsedTypes f)
                []).contains c))) ≠ [] :=
          fun he => h1 (sortStrings_isEmpty_iff.mp he)
        rw [if_neg (by simpa [List.isEmpty_iff] using h2)]
  · intro t
    rw [sortStrings_mem, dedupKeepFirst_mem, List.mem_filter]
    constructor
    · rintro ⟨hmm, hc⟩
      obtain ⟨k, hk, rfl⟩ := List.mem_map.mp hmm
      obtain ⟨pr, hpr, rfl⟩ := List.mem_map.mp hk
      have hu := (mem_foldl_append extractUsedTypes fns [] _).mp
        (List.elem_iff.mp hc)
      rcases hu with h | h
      · simp at h
      · exact ⟨⟨pr, hpr, rfl⟩, h⟩
    · rintro ⟨⟨pr, hpr, rfl⟩, hf⟩
      refine ⟨List.mem_map.mpr ⟨pr.1, List.mem_map.mpr ⟨pr, hpr, rfl⟩, rfl⟩, ?_⟩
      exact List.elem_iff.mpr
        ((mem_foldl_append extractUsedTypes fns [] _).mpr (Or.inr hf))

/-- Witness for C5 at the Scenario C module: its one function uses
SearchRequest, which is declared, so exactly that import is emitted. -/
theorem c5_import_minimality_witness :
    ∃ L, generateImports "team"
        [("SearchRequest", "export interface SearchRequest \x7b\n\x7d\n")]
        [renderFunction ⟨"s", "search", "SearchRequest", "EmptyReply", "GET", "/s"⟩] =
        (if L.isEmpty then [] else [⟨"types", L⟩]) ∧
      List.Sorted strLe L ∧ L.Nodup ∧
      (∀ t, t ∈ L ↔
        ((∃ pr ∈ ([("SearchRequest", "export interface SearchRequest \x7b\n\x7d\n")] :
            List (String × String)), cleanIfaceName pr.1 = t) ∧
          ∃ f ∈ [renderFunction ⟨"s", "search", "SearchRequest", "EmptyReply", "GET", "/s"⟩],
            t ∈ extractUsedTypes f)) :=
  c5_import_minimality "team"
    [("SearchRequest", "export interface SearchRequest \x7b\n\x7d\n")]
    [renderFunction ⟨"s", "search", "SearchRequest", "EmptyReply", "GET", "/s"⟩]
    (by decide)

/-- An operation whose non-empty identifier "test" has no underscore (fewer
than two parts). -/
def opBadId : OperationT := ⟨["test"], "sum", "test", [], none, []⟩

/-- A document with the short-identifier operation and a well-formed sibling
operation on another path. -/
def docPanic : Doc :=
  ⟨[("/t", ⟨none, some opBadId, none, none⟩),
    ("/u", ⟨none, some (opTeamList "Team_List"), none, none⟩)], []⟩

/-- C4: the code, evaluated at the failing input.  The claim says an
operation whose non-empty identifier has fewer than two underscore-parts is
skipped and sibling operations are unaffected; instead
main.go indexes strings.Split(OperationID, "_")[1] unguarded, which panics
(modelled by none), aborting the run and dropping the sibling operation's
output as well. -/
theorem c4_short_identifier_panics :
    fnBaseOf "test" = none ∧
    processOp "/t" "GET" ⟨[], [], [], 0⟩ opBadId = none ∧
    run docPanic = none := by
  refine ⟨by decide, by decide, by decide⟩

/-! ## Prefix and numeral lemmas for the collision resolver -/

theorem strDataAppend (a b : String) : (a ++ b).data = a.data ++ b.data := rfl

theorem isPre_self_append : ∀ (p t : List Char), isPre p (p ++ t) = true
  | [], _ => rfl
  | c :: p', t => by
    simp only [List.cons_append, isPre, beq_self_eq_true, Bool.true_and]
    exact isPre_self_append p' t

theorem isPre_append_cancel :
    ∀ (x u v : List Char), isPre (x ++ u) (x ++ v) = isPre u v
  | [], _, _ => rfl
  | c :: x', u, v => by
    simp only [List.cons_append, isPre, beq_self_eq_true, Bool.true_and]
    exact isPre_append_cancel x' u v

theorem isPre_mono :
    ∀ (a c s : List Char), isPre (a ++ c) s = true → isPre a s = true
  | [], _, _, _ => rfl
  | x :: a', c, [], h => by simp [isPre] at h
  | x :: a', c, y :: s', h => by
    simp only [List.cons_append, isPre, Bool.and_eq_true] at h ⊢
    exact ⟨h.1, isPre_mono a' c s' h.2⟩

theorem digitChar_isDigit {n : Nat} (h : n < 10) :
    (Nat.digitChar n).isDigit = true := by
  interval_cases n <;> decide

theorem decimalAuxF_digits :
    ∀ (fuel n : Nat), n < fuel → ∀ c ∈ decimalAuxF fuel n, c.isDigit = true
  | 0, n, h => by omega
  | fuel + 1, n, h => by
    intro c hc
    rw [decimalAuxF] at hc
    by_cases h10 : n < 10
    · rw [if_pos h10] at hc
      rw [List.mem_singleton.mp hc]
      exact digitChar_isDigit h10
    · rw [if_neg h10] at hc
      rcases List.mem_cons.mp hc with h1 | h1
      · rw [h1]
        exact digitChar_isDigit (Nat.mod_lt n (by omega))
      · exact decimalAuxF_digits fuel (n / 10) (by omega) c h1

theorem decimal_digits (n : Nat) : ∀ c ∈ (decimal n).data, c.isDigit = true := by
  intro c hc
  rw [decimal] at hc
  exact decimalAuxF_digits (n + 1) n (Nat.lt_succ_self n) c
    (List.mem_reverse.mp hc)

theorem decimalAuxF_ne_nil (n : Nat) : decimalAuxF (n + 1) n ≠ [] := by
  rw [decimalAuxF]
  by_cases h10 : n < 10
  · rw [if_pos h10]; simp
  · rw [if_neg h10]; simp

theorem decimal_ne_nil (n : Nat) : (decimal n).data ≠ [] := by
  rw [decimal]
  intro h
  exact decimalAuxF_ne_nil n (by simpa using List.reverse_eq_nil_iff.mp h)

/-- Numeric value of the digit characters produced by the decimal printer. -/
def charDigitVal (c : Char) : Nat := c.toNat - 48

/-- Little-endian reading of a digit list. -/
def valNumLE : List Char → Nat
  | [] => 0
  | c :: r => charDigitVal c + 10 * valNumLE r

theorem charDigitVal_digitChar {n : Nat} (h : n < 10) :
    charDigitVal (Nat.digitChar n) = n := by
  interval_cases n <;> decide

theorem valNumLE_decimalAuxF :
    ∀ (fuel n : Nat), n < fuel → valNumLE (decimalAuxF fuel n) = n
  | 0, n, h => by omega
  | fuel + 1, n, h => by
    rw [decimalAuxF]
    by_cases h10 : n < 10
    · rw [if_pos h10]
      simp [valNumLE, charDigitVal_digitChar h10]
    · rw [if_neg h10]
      rw [valNumLE, charDigitVal_digitChar (Nat.mod_lt n (by omega)),
        valNumLE_decimalAuxF fuel (n / 10) (by omega)]
      exact Nat.mod_add_div n 10

theorem decimal_inj {a b : Nat} (h : decimal a = decimal b) : a = b := by
  have hd : (decimal a).data = (decimal b).data := by rw [h]
  rw [decimal, decimal] at hd
  have hd2 : decimalAuxF (a + 1) a = decimalAuxF (b + 1) b :=
    List.reverse_injective (by simpa using hd)
  have := valNumLE_decimalAuxF (a + 1) a (Nat.lt_succ_self a)
  rw [hd2, valNumLE_decimalAuxF (b + 1) b (Nat.lt_succ_self b)] at this
  exact this.symm

theorem isDigit_ne_underscore {c : Char} (h : c.isDigit = true) : c ≠ '_' := by
  intro he
  rw [he] at h
  exact absurd h (by decide)

theorem isPre_digit_underscore :
    ∀ (si sj rest : List Char), (∀ c ∈ si, c.isDigit = true) →
      (∀ c ∈ sj, c.isDigit = true) → si ≠ sj →
      isPre (si ++ ['_']) (sj ++ '_' :: rest) = false
  | [], [], _, _, _, hne => absurd rfl hne
  | [], c :: sj', rest, _, hdj, _ => by
    simp only [List.nil_append, List.cons_append, isPre]
    have : ('_' == c) = false := by
      apply beq_eq_false_iff_ne.mpr
      intro he
      exact isDigit_ne_underscore (hdj c (List.mem_cons_self c sj')) he.symm
    simp [this]
  | a :: si', [], rest, hdi, _, _ => by
    simp only [List.cons_append, List.nil_append, isPre]
    have : (a == '_') = false := by
      apply beq_eq_false_iff_ne.mpr
      exact isDigit_ne_underscore (hdi a (List.mem_cons_self a si'))
    simp [this]
  | a :: si', c :: sj', rest, hdi, hdj, hne => by
    show (a == c && isPre (si' ++ ['_']) (sj' ++ '_' :: rest)) = false
    by_cases hac : a = c
    · subst hac
      have hne' : si' ≠ sj' := fun he => hne (by rw [he])
      rw [isPre_digit_underscore si' sj' rest
        (fun x hx => hdi x (List.mem_cons_of_mem a hx))
        (fun x hx => hdj x (List.mem_cons_of_mem a hx)) hne']
      simp
    · rw [beq_eq_false_iff_ne.mpr hac]
      simp

/-! ## The name sequence produced by the collision resolver -/

/-- The name the collision resolver gives the j-th operation of one
same-base-name sequence: the base name itself first, then base2, base3, … -/
def seqName (b : String) (j : Nat) : String :=
  if j = 0 then b else b ++ decimal (j + 1)

theorem seqName_data_zero (b : String) : (seqName b 0).data = b.data := rfl

theorem seqName_data_pos (b : String) {j : Nat} (h : j ≠ 0) :
    (seqName b j).data = b.data ++ (decimal (j + 1)).data := by
  rw [seqName, if_neg h, strDataAppend]

theorem seqName_inj {b : String} {i j : Nat} (h : seqName b i = seqName b j) :
    i = j := by
  by_cases hi : i = 0 <;> by_cases hj : j = 0
  · rw [hi, hj]
  · rw [seqName, if_pos hi, seqName, if_neg hj] at h
    have hd := congrArg String.data h
    rw [strDataAppend] at hd
    have hlen := congrArg List.length hd
    rw [List.length_append] at hlen
    have hz : (decimal (j + 1)).data.length = 0 := by omega
    exact absurd (List.length_eq_zero.mp hz) (decimal_ne_nil (j + 1))
  · rw [seqName, if_neg hi, seqName, if_pos hj] at h
    have hd := congrArg String.data h
    rw [strDataAppend] at hd
    have hlen := congrArg List.length hd
    rw [List.length_append] at hlen
    have hz : (decimal (i + 1)).data.length = 0 := by omega
    exact absurd (List.length_eq_zero.mp hz) (decimal_ne_nil (i + 1))
  · rw [seqName, if_neg hi, seqName, if_neg hj] at h
    have hd := congrArg String.data h
    rw [strDataAppend, strDataAppend] at hd
    have hdec : (decimal (i + 1)).data = (decimal (j + 1)).data :=
      List.append_cancel_left hd
    have : decimal (i + 1) = decimal (j + 1) := String.ext hdec
    have := decimal_inj this
    omega

theorem underscoreData : ("_" : String).data = ['_'] := rfl

/-! ## Association-list update lemmas -/

theorem anyKey_eq_false_iff {α : Type} {l : List (String × α)} {k : String} :
    (l.any fun p => p.1 == k) = false ↔ k ∉ l.map Prod.fst := by
  rw [← Bool.not_eq_true, List.any_eq_true]
  constructor
  · intro h hm
    obtain ⟨p, hp, he⟩ := List.mem_map.mp hm
    exact h ⟨p, hp, by rw [he]; exact beq_self_eq_true k⟩
  · rintro h ⟨p, hp, hpe⟩
    exact h (List.mem_map.mpr ⟨p, hp, by simpa using hpe⟩)

theorem assocSet_fresh {α : Type} {l : List (String × α)} {k : String} (v : α)
    (h : k ∉ l.map Prod.fst) : assocSet l k v = l ++ [(k, v)] := by
  have hf : (l.any fun p => p.1 == k) = false := anyKey_eq_false_iff.mpr h
  rw [assocSet, if_neg (by rw [hf]; simp)]

theorem lookup_append_of_none {α : Type} {k : String} :
    ∀ {l l2 : List (String × α)}, List.lookup k l = none →
      List.lookup k (l ++ l2) = List.lookup k l2
  | [], _, _ => rfl
  | (a, b) :: t, l2, h => by
    cases hk : (k == a) with
    | true =>
      simp only [List.lookup, hk] at h
      exact Option.noConfusion h
    | false =>
      simp only [List.lookup, hk] at h
      simp only [List.cons_append, List.lookup, hk]
      exact lookup_append_of_none h

theorem lookup_map_replace {α : Type} (f : α → α) (k : String) :
    ∀ {l : List (String × α)}, (l.any fun p => p.1 == k) = true →
      ∃ v, List.lookup k l = some v ∧
        List.lookup k (l.map fun p => if p.1 == k then (k, f p.2) else p) =
          some (f v)
  | [], h => by simp at h
  | (a, b) :: t, h => by
    cases hk : (k == a) with
    | true =>
      have hka : k = a := by simpa using hk
      subst hka
      refine ⟨b, by simp [List.lookup], ?_⟩
      rw [List.map_cons]
      have hhead : (if (((k, b) : String × α).1 == k) = true then (k, f ((k, b) : String × α).2)
          else ((k, b) : String × α)) = (k, f b) := by simp
      rw [hhead]
      simp [List.lookup]
    | false =>
      have hakf : (a == k) = false := by
        apply beq_eq_false_iff_ne.mpr
        intro he
        rw [he] at hk
        simp at hk
      have h' : (t.any fun p => p.1 == k) = true := by
        rcases List.any_eq_true.mp h with ⟨p, hp, hpk⟩
        rcases List.mem_cons.mp hp with h1 | h1
        · exfalso
          rw [h1] at hpk
          rw [hakf] at hpk
          cases hpk
        · exact List.any_eq_true.mpr ⟨p, h1, hpk⟩
      obtain ⟨v, hv1, hv2⟩ := lookup_map_replace f k h'
      refine ⟨v, ?_, ?_⟩
      · simp only [List.lookup, hk]
        exact hv1
      · rw [List.map_cons]
        have hhead : (if (((a, b) : String × α).1 == k) = true then (k, f ((a, b) : String × α).2)
            else ((a, b) : String × α)) = (a, b) := by simp [hakf]
        rw [hhead]
        simp only [List.lookup, hk]
        exact hv2

theorem lookup_assocUpdate_self {α : Type} (l : List (String × α)) (k : String)
    (f : α → α) (d : α) :
    List.lookup k (assocUpdate l k f d) =
      some (f ((List.lookup k l).getD d)) := by
  cases ha : (l.any fun p => p.1 == k) with
  | false =>
    have hk : k ∉ l.map Prod.fst := anyKey_eq_false_iff.mp ha
    have hnone := lookup_eq_none_of_not_mem_keys (α := α) hk
    rw [assocUpdate, if_neg (by rw [ha]; simp)]
    rw [lookup_append_of_none hnone, hnone]
    simp [List.lookup]
  | true =>
    obtain ⟨v, hv1, hv2⟩ := lookup_map_replace f k ha
    rw [assocUpdate, if_pos ha, hv2, hv1]
    rfl

/-! ## Behaviour of the collision loop on one same-base sequence -/

theorem collides_eq_false_iff {processed : List String} {m f : String} :
    collides processed m f = false ↔
      ∀ key ∈ processed, goStartsWith key (m ++ "_" ++ f ++ "_") = false := by
  rw [collides, ← Bool.not_eq_true, List.any_eq_true]
  constructor
  · intro h key hk
    cases hg : goStartsWith key (m ++ "_" ++ f ++ "_") with
    | false => rfl
    | true => exact absurd ⟨key, hk, hg⟩ h
  · rintro h ⟨key, hk, hg⟩
    rw [h key hk] at hg
    cases hg

theorem collides_append {l l' : List String} {m f : String} :
    collides (l ++ l') m f = (collides l m f || collides l' m f) := by
  rw [collides, collides, collides, List.any_append]

/-- The canonical data form of a processed key of one same-base sequence. -/
def seqKeyData (m b : String) (j : Nat) (r : List Char) : List Char :=
  m.data ++ '_' :: ((seqName b j).data ++ '_' :: r)

theorem seq_not_collides (m b : String) (i : Nat) (processed : List String)
    (hB : ∀ key ∈ processed, goStartsWith key (m ++ "_" ++ b) = false ∨
      ∃ j, j < i ∧ ∃ r : List Char, key.data = seqKeyData m b j r) :
    collides processed m (seqName b i) = false := by
  apply collides_eq_false_iff.mpr
  intro key hkey
  have hPdata : (m ++ "_" ++ seqName b i ++ "_").data =
      (m.data ++ '_' :: b.data) ++
        ((if i = 0 then [] else (decimal (i + 1)).data) ++ ['_']) := by
    by_cases hi : i = 0
    · subst hi
      simp [strDataAppend, underscoreData, seqName_data_zero]
    · rw [if_neg hi]
      simp [strDataAppend, underscoreData, seqName_data_pos b hi]
  cases hg : goStartsWith key (m ++ "_" ++ seqName b i ++ "_") with
  | false => rfl
  | true =>
    exfalso
    rw [goStartsWith, hPdata] at hg
    rcases hB key hkey with hL | ⟨j, hj, r, hk⟩
    · have hmb : (m ++ "_" ++ b).data = m.data ++ '_' :: b.data := by
        simp [strDataAppend, underscoreData]
      have := isPre_mono (m.data ++ '_' :: b.data) _ key.data hg
      rw [goStartsWith, hmb, this] at hL
      cases hL
    · rw [hk] at hg
      by_cases hjz : j = 0
      · subst hjz
        have hi : i ≠ 0 := by omega
        rw [if_neg hi] at hg
        have hkd : seqKeyData m b 0 r =
            (m.data ++ '_' :: b.data) ++ ('_' :: r) := by
          simp [seqKeyData, seqName_data_zero]
        rw [hkd, isPre_append_cancel] at hg
        cases hdc : (decimal (i + 1)).data with
        | nil => exact decimal_ne_nil (i + 1) hdc
        | cons c cs =>
          rw [hdc] at hg
          have hcd : c.isDigit = true :=
            decimal_digits (i + 1) c (by rw [hdc]; exact List.mem_cons_self c cs)
          have : (c == '_') = false :=
            beq_eq_false_iff_ne.mpr (isDigit_ne_underscore hcd)
          rw [List.cons_append, isPre, this] at hg
          simp at hg
      · have hi : i ≠ 0 := by omega
        rw [if_neg hi] at hg
        have hkd : seqKeyData m b j r =
            (m.data ++ '_' :: b.data) ++
              ((decimal (j + 1)).data ++ '_' :: r) := by
          simp [seqKeyData, seqName_data_pos b hjz]
        rw [hkd, isPre_append_cancel] at hg
        have hne : (decimal (i + 1)).data ≠ (decimal (j + 1)).data := by
          intro he
          have := decimal_inj (String.ext he)
          omega
        rw [isPre_digit_underscore _ _ _ (decimal_digits (i + 1))
          (decimal_digits (j + 1)) hne] at hg
        cases hg

theorem resolveAux_reaches (m b : String) (processed : List String) :
    ∀ (fuel c n : Nat), c ≤ n → n - c < fuel →
      (∀ j, c ≤ j → j < n → collides processed m (seqName b j) = true) →
      collides processed m (seqName b n) = false →
      resolveFnNameAux m b fuel processed (seqName b c) (c + 1) = seqName b n
  | 0, c, n, hcn, hf, _, _ => by omega
  | fuel + 1, c, n, hcn, hf, hcol, hfree => by
    rw [resolveFnNameAux]
    by_cases hceq : c = n
    · subst hceq
      rw [if_neg (by rw [hfree]; simp)]
    · have hcn' : c < n := by omega
      rw [if_pos (hcol c (Nat.le_refl c) hcn')]
      have hnext : b ++ decimal (c + 1 + 1) = seqName b (c + 1) := by
        rw [seqName, if_neg (by omega)]
      rw [hnext]
      exact resolveAux_reaches m b processed fuel (c + 1) n (by omega) (by omega)
        (fun j hj1 hj2 => hcol j (by omega) hj2) hfree

theorem resolveFnName_seq (m b : String) (processed : List String) (i : Nat)
    (hcol : ∀ j, j < i → collides processed m (seqName b j) = true)
    (hfree : collides processed m (seqName b i) = false)
    (hlen : i ≤ processed.length) :
    resolveFnName processed m b = seqName b i :=
  resolveAux_reaches m b processed (processed.length + 2) 0 i (Nat.zero_le i)
    (by omega) (fun j _ hj => hcol j hj) hfree

theorem c3_fold_inv (m b : String) :
    ∀ (rest : List (String × String × OperationT)) (i : Nat) (st : SynthState),
      (∀ it ∈ rest, it.2.2.operationId ≠ "" ∧ getModuleName it.2.2.tags = m ∧
        fnBaseOf it.2.2.operationId = some b ∧ summaryOf it.2.2 ≠ none) →
      (∀ j, j < i → collides st.processed m (seqName b j) = true) →
      (∀ key ∈ st.processed, goStartsWith key (m ++ "_" ++ b) = false ∨
        ∃ j, j < i ∧ ∃ r : List Char, key.data = seqKeyData m b j r) →
      i ≤ st.processed.length →
      ((List.lookup m st.functionsByModule).getD []).map Prod.fst =
        (List.range i).map (seqName b) →
      ∃ st', rest.foldlM (fun s it => processOp it.2.1 it.1 s it.2.2) st =
          some st' ∧
        ((List.lookup m st'.functionsByModule).getD []).map Prod.fst =
          (List.range (i + rest.length)).map (seqName b)
  | [], i, st, _, _, _, _, hC => ⟨st, rfl, by simpa using hC⟩
  | it :: rest, i, st, hops, hA, hB, hD, hC => by
    obtain ⟨hid, hmod, hbase, hsum⟩ := hops it (List.mem_cons_self it rest)
    obtain ⟨summ, hsummEq⟩ := Option.ne_none_iff_exists'.mp hsum
    have hfree := seq_not_collides m b i st.processed hB
    have hname : resolveFnName st.processed m b = seqName b i :=
      resolveFnName_seq m b st.processed i hA hfree hD
    have hkdata : (m ++ "_" ++ seqName b i ++ "_" ++ it.1 ++ "_" ++ it.2.1).data =
        seqKeyData m b i (it.1.data ++ '_' :: it.2.1.data) := by
      simp [seqKeyData, strDataAppend, underscoreData]
    have hpredata : (m ++ "_" ++ seqName b i ++ "_" ++ it.1 ++ "_" ++ it.2.1).data =
        (m ++ "_" ++ seqName b i ++ "_").data ++ (it.1.data ++ '_' :: it.2.1.data) := by
      simp [strDataAppend, underscoreData]
    have hpre : goStartsWith (m ++ "_" ++ seqName b i ++ "_" ++ it.1 ++ "_" ++ it.2.1)
        (m ++ "_" ++ seqName b i ++ "_") = true := by
      rw [goStartsWith, hpredata]
      exact isPre_self_append _ _
    have hnotmem : st.processed.contains
        (m ++ "_" ++ seqName b i ++ "_" ++ it.1 ++ "_" ++ it.2.1) = false := by
      cases hcon : st.processed.contains
          (m ++ "_" ++ seqName b i ++ "_" ++ it.1 ++ "_" ++ it.2.1) with
      | false => rfl
      | true =>
        exfalso
        have hmem := List.elem_iff.mp hcon
        have := collides_eq_false_iff.mp hfree _ hmem
        rw [hpre] at this
        cases this
    have hidb : (it.2.2.operationId == "") = false := beq_eq_false_iff_ne.mpr hid
    have hstep : processOp it.2.1 it.1 st it.2.2 = some
        ⟨st.processed ++ [m ++ "_" ++ seqName b i ++ "_" ++ it.1 ++ "_" ++ it.2.1],
         assocUpdate st.functionsByModule m
           (fun fns => assocSet fns (seqName b i)
             (renderFunction ⟨summ, seqName b i, paramTypeOf it.2.2,
               responseTypeOf it.2.2, it.1, it.2.1⟩)) [],
         assocSet st.functionOrder (seqName b i) (st.globalOrder + 1),
         st.globalOrder + 1⟩ := by
      simp only [processOp, hidb, hmod, hsummEq, hbase, hname, hnotmem]
      simp
    rw [List.foldlM_cons, hstep]
    have hC' : ((List.lookup m (assocUpdate st.functionsByModule m
        (fun fns => assocSet fns (seqName b i)
          (renderFunction ⟨summ, seqName b i, paramTypeOf it.2.2,
            responseTypeOf it.2.2, it.1, it.2.1⟩)) [])).getD []).map Prod.fst =
        (List.range (i + 1)).map (seqName b) := by
      rw [lookup_assocUpdate_self]
      have hfreshKey : seqName b i ∉
          (((List.lookup m st.functionsByModule).getD []).map Prod.fst) := by
        rw [hC]
        intro hmem
        obtain ⟨j, hj, he⟩ := List.mem_map.mp hmem
        have := seqName_inj he
        rw [List.mem_range] at hj
        omega
      rw [Option.getD_some, assocSet_fresh _ hfreshKey, List.map_append, hC]
      rw [List.range_succ, List.map_append]
      rfl
    have hresult := c3_fold_inv m b rest (i + 1)
      ⟨st.processed ++ [m ++ "_" ++ seqName b i ++ "_" ++ it.1 ++ "_" ++ it.2.1],
       assocUpdate st.functionsByModule m
         (fun fns => assocSet fns (seqName b i)
           (renderFunction ⟨summ, seqName b i, paramTypeOf it.2.2,
             responseTypeOf it.2.2, it.1, it.2.1⟩)) [],
       assocSet st.functionOrder (seqName b i) (st.globalOrder + 1),
       st.globalOrder + 1⟩
      (fun x hx => hops x (List.mem_cons_of_mem it hx))
      (by
        intro j hj
        show collides (st.processed ++ [_]) m (seqName b j) = true
        rw [collides_append]
        by_cases hji : j < i
        · rw [hA j hji]
          rfl
        · have hji' : j = i := by omega
          subst hji'
          have : collides [m ++ "_" ++ seqName b j ++ "_" ++ it.1 ++ "_" ++ it.2.1]
              m (seqName b j) = true := by
            rw [collides, List.any_cons, hpre]
            rfl
          rw [this]
          simp)
      (by
        intro key hkey
        rcases List.mem_append.mp hkey with hold | hnew
        · rcases hB key hold with hL | ⟨j, hj, r, hk⟩
          · exact Or.inl hL
          · exact Or.inr ⟨j, by omega, r, hk⟩
        · rw [List.mem_singleton.mp hnew]
          exact Or.inr ⟨i, by omega, it.1.data ++ '_' :: it.2.1.data, hkdata⟩)
      (by
        show i + 1 ≤ (st.processed ++ [_]).length
        rw [List.length_append]
        simp only [List.length_singleton]
        omega)
      hC'
    obtain ⟨st', hfold, hmap⟩ := hresult
    refine ⟨st', ?_, ?_⟩
    · simpa using hfold
    · rw [hmap]
      have h1 : i + 1 + rest.length = i + (it :: rest).length := by
        simp only [List.length_cons]
        omega
      rw [h1]

/-- C3 counterexample: in module team, processing Team_List (path /a),
Team_List (path /b) and Team_List2 (path /c) in the deterministic order
emits the names list, list2 and list22.  The operation sequence whose base
name is list2 consists of the one Team_List2 operation, so the claim
requires it to be named exactly list2 (first-processed keeps the unsuffixed
name); instead the prefix membership test sees the accepted key
team_list2_GET_/b of the suffixed Team_List operation, reports a collision,
and emits list22. -/
theorem c3_counterexample :
    fnBaseOf "Team_List2" = some "list2" ∧
    (synthStateOf docTeam).map
      (fun st => st.functionsByModule.map (fun q => (q.1, q.2.map Prod.fst))) =
      some [("team", ["list", "list2", "list22"])] ∧
    resolveFnName ["team_list_GET_/a", "team_list2_GET_/b"] "team" "list2" =
      "list22" := by
  refine ⟨by decide, by decide, by decide⟩

/-- C3 amended: within one module, a sequence of operations with the same
synthesized base function name, processed in order from a state none of
whose accepted keys starts with module_base (so no previously accepted name
is the base or the base extended with a numeric suffix, and no other
module's keys share the prefix), is named exactly base, base2, base3, …:
no gaps, no reuse, and the first-processed operation keeps the unsuffixed
name.  The counterexample shows the no-interfering-prefix hypothesis is
necessary. -/
theorem c3_collision_suffix_sequence (m b : String)
    (items : List (String × String × OperationT)) (st₀ : SynthState)
    (hops : ∀ it ∈ items, it.2.2.operationId ≠ "" ∧
      getModuleName it.2.2.tags = m ∧ fnBaseOf it.2.2.operationId = some b ∧
      summaryOf it.2.2 ≠ none)
    (h₀ : ∀ key ∈ st₀.processed, goStartsWith key (m ++ "_" ++ b) = false)
    (hm₀ : m ∉ st₀.functionsByModule.map Prod.fst) :
    ∃ st', items.foldlM (fun s it => processOp it.2.1 it.1 s it.2.2) st₀ =
        some st' ∧
      ((List.lookup m st'.functionsByModule).getD []).map Prod.fst =
        (List.range items.length).map (seqName b) := by
  have hres := c3_fold_inv m b items 0 st₀ hops
    (fun j hj => absurd hj (Nat.not_lt_zero j))
    (fun key hk => Or.inl (h₀ key hk))
    (Nat.zero_le _)
    (by rw [lookup_eq_none_of_not_mem_keys hm₀]; rfl)
  simpa using hres

/-- Witness for the amended C3: two Team_List operations in module team,
starting from a state holding one unrelated accepted key, are named
list and list2. -/
theorem c3_collision_suffix_sequence_witness :
    ∃ st', ([("GET", "/a", opTeamList "Team_List"),
        ("GET", "/b", opTeamList "Team_List")] :
          List (String × String × OperationT)).foldlM
        (fun s it => processOp it.2.1 it.1 s it.2.2)
        (⟨["user_get_GET_/u"], [], [], 0⟩ : SynthState) = some st' ∧
      ((List.lookup "team" st'.functionsByModule).getD []).map Prod.fst =
        (List.range 2).map (seqName "list") :=
  c3_collision_suffix_sequence "team" "list"
    [("GET", "/a", opTeamList "Team_List"), ("GET", "/b", opTeamList "Team_List")]
    ⟨["user_get_GET_/u"], [], [], 0⟩ (by decide) (by decide) (by decide)

/-! ## Sameness of documents up to map iteration order

A decoded Go document is a collection of maps; two runs of the generator on
the same document see the same maps in possibly different iteration orders.
Two `Doc` values therefore denote the same document exactly when they agree
up to permutation of every embedded association list. -/

/-- Lift a relation to options (both absent, or both present and related). -/
def optRel {α : Type} (r : α → α → Prop) : Option α → Option α → Prop
  | none, none => True
  | some a, some b => r a b
  | _, _ => False

/-- Two association lists denote the same map with values related by `r`:
one permutes into a list pointwise key-equal and value-related to the
other. -/
def AssocRel {α : Type} (r : α → α → Prop) (l₁ l₂ : List (String × α)) : Prop :=
  ∃ mid, l₁.Perm mid ∧ List.Forall₂ (fun p q => p.1 = q.1 ∧ r p.2 q.2) mid l₂

/-- Sameness of schemas: all fields equal, the properties map up to
permutation. -/
def SchemaEquiv (s₁ s₂ : SchemaT) : Prop :=
  s₁.type = s₂.type ∧ s₁.properties.Perm s₂.properties ∧
  s₁.addPropsType = s₂.addPropsType ∧ s₁.description = s₂.description ∧
  s₁.format = s₂.format ∧ s₁.items = s₂.items ∧ s₁.allOf = s₂.allOf ∧
  s₁.enum = s₂.enum

/-- Sameness of operations: all fields equal, the request-body content map
up to permutation, the responses map up to permutation with each content map
up to permutation. -/
def OpEquiv (o₁ o₂ : OperationT) : Prop :=
  o₁.tags = o₂.tags ∧ o₁.summary = o₂.summary ∧
  o₁.operationId = o₂.operationId ∧ o₁.parameters = o₂.parameters ∧
  optRel List.Perm o₁.requestBody o₂.requestBody ∧
  AssocRel List.Perm o₁.responses o₂.responses

/-- Sameness of path items: each method slot both absent or related. -/
def ItemEquiv (i₁ i₂ : PathItemT) : Prop :=
  optRel OpEquiv i₁.post i₂.post ∧ optRel OpEquiv i₁.get i₂.get ∧
  optRel OpEquiv i₁.put i₂.put ∧ optRel OpEquiv i₁.delete i₂.delete

/-- Two `Doc` values decode the same document. -/
def DocEquiv (d₁ d₂ : Doc) : Prop :=
  AssocRel ItemEquiv d₁.paths d₂.paths ∧
  AssocRel SchemaEquiv d₁.schemas d₂.schemas

/-- The four operation slots of a path item. -/
def itemOps (item : PathItemT) : List (Option OperationT) :=
  [item.post, item.get, item.put, item.delete]

/-- Well-formedness of a decoded document: every embedded map has distinct
keys (maps cannot carry duplicate keys). -/
def wfDoc (d : Doc) : Prop :=
  (d.paths.map Prod.fst).Nodup ∧ (d.schemas.map Prod.fst).Nodup ∧
  (∀ q ∈ d.schemas, (q.2.properties.map Prod.fst).Nodup) ∧
  (∀ q ∈ d.paths, ∀ o ∈ itemOps q.2, ∀ op, o = some op →
    (op.responses.map Prod.fst).Nodup)

/-- At most one media-type entry per content map of one operation. -/
def smallContentOp (op : OperationT) : Prop :=
  (∀ c, op.requestBody = some c → c.length ≤ 1) ∧
  (∀ q ∈ op.responses, q.2.length ≤ 1)

/-- At most one media-type entry per content map of the whole document. -/
def smallContentDoc (d : Doc) : Prop :=
  ∀ q ∈ d.paths, ∀ o ∈ itemOps q.2, ∀ op, o = some op → smallContentOp op

/-- No two enumerated schemas resolve to the same enum type name. -/
def enumTypeNamesDistinct (d : Doc) : Prop :=
  ((allEnumsOf d).map EnumData.typeName).Nodup

/-- An operation with a two-entry request-body content map, in the order the
first run iterates it. -/
def opTwoMedia1 : OperationT :=
  ⟨["team"], "create", "Team_Create", [], some
    [("application/json", ⟨"#/components/schemas/X", ""⟩),
     ("application/xml", ⟨"#/components/schemas/Y", ""⟩)], []⟩

/-- The same operation as the second run iterates its content map. -/
def opTwoMedia2 : OperationT :=
  ⟨["team"], "create", "Team_Create", [], some
    [("application/xml", ⟨"#/components/schemas/Y", ""⟩),
     ("application/json", ⟨"#/components/schemas/X", ""⟩)], []⟩

/-- The document as decoded by the first run. -/
def docMedia1 : Doc := ⟨[("/p", ⟨some opTwoMedia1, none, none, none⟩)], []⟩

/-- The document as decoded by the second run. -/
def docMedia2 : Doc := ⟨[("/p", ⟨some opTwoMedia2, none, none, none⟩)], []⟩

/-- C1 counterexample: the two `Doc` values denote the same decoded
document (their content maps are permutations), yet the two runs render
different output for module team: the first picks parameter type X, the
second Y.  The synthesis is therefore not deterministic on documents whose
request-body content map has more than one entry. -/
theorem c1_counterexample : DocEquiv docMedia1 docMedia2 ∧
    run docMedia1 ≠ run docMedia2 := by
  constructor
  · constructor
    · refine ⟨docMedia1.paths, List.Perm.refl _, ?_⟩
      refine List.Forall₂.cons ⟨rfl, ?_⟩ List.Forall₂.nil
      refine ⟨?_, trivial, trivial, trivial⟩
      show optRel OpEquiv (some opTwoMedia1) (some opTwoMedia2)
      show OpEquiv opTwoMedia1 opTwoMedia2
      refine ⟨rfl, rfl, rfl, rfl, ?_, ⟨[], List.Perm.refl _, List.Forall₂.nil⟩⟩
      show List.Perm _ _
      exact List.Perm.swap _ _ _
    · exact ⟨[], List.Perm.refl _, List.Forall₂.nil⟩
  · decide

/-! ## Congruence of the pipeline stages under map reordering -/

theorem perm_any_eq {α : Type} {l₁ l₂ : List α} (h : l₁.Perm l₂)
    (p : α → Bool) : l₁.any p = l₂.any p := by
  cases ha : l₂.any p with
  | true =>
    obtain ⟨x, hx, hp⟩ := List.any_eq_true.mp ha
    exact List.any_eq_true.mpr ⟨x, h.mem_iff.mpr hx, hp⟩
  | false =>
    cases hb : l₁.any p with
    | false => rfl
    | true =>
      obtain ⟨x, hx, hp⟩ := List.any_eq_true.mp hb
      have hc := List.any_eq_true.mpr ⟨x, h.mem_iff.mp hx, hp⟩
      rw [ha] at hc
      cases hc

theorem forall₂_any_eq {α : Type} {R : α → α → Prop} {p : α → Bool}
    (hpr : ∀ x y, R x y → p x = p y) :
    ∀ {l₁ l₂ : List α}, List.Forall₂ R l₁ l₂ → l₁.any p = l₂.any p
  | _, _, List.Forall₂.nil => rfl
  | _, _, List.Forall₂.cons h t => by
    rw [List.any_cons, List.any_cons, hpr _ _ h, forall₂_any_eq hpr t]

theorem forall₂_filterMap_eq_mem {α β : Type} {R : α → α → Prop}
    {F : α → Option β} {big : List α}
    (hfr : ∀ x y, x ∈ big → R x y → F x = F y) :
    ∀ {l₁ l₂ : List α}, (∀ x ∈ l₁, x ∈ big) → List.Forall₂ R l₁ l₂ →
      l₁.filterMap F = l₂.filterMap F
  | _, _, _, List.Forall₂.nil => rfl
  | x :: l₁, y :: l₂, hmem, List.Forall₂.cons h t => by
    rw [List.filterMap_cons, List.filterMap_cons,
      hfr x y (hmem x (List.mem_cons_self _ _)) h,
      forall₂_filterMap_eq_mem hfr (fun z hz => hmem z (List.mem_cons_of_mem _ hz)) t]

theorem enumTypesOf_congr {s₁ s₂ : List (String × SchemaT)}
    (h : AssocRel SchemaEquiv s₁ s₂) : enumTypesOf s₁ = enumTypesOf s₂ := by
  funext name
  obtain ⟨mid, hperm, hf⟩ := h
  show s₁.any _ = s₂.any _
  rw [perm_any_eq hperm]
  exact forall₂_any_eq (fun x y hxy => by
    rw [show x.1 = y.1 from hxy.1, show x.2.enum = y.2.enum
      from hxy.2.2.2.2.2.2.2.2]) hf

theorem sortByKey_congr_perm {α : Type} {l₁ l₂ : List (String × α)}
    (h : l₁.Perm l₂) (hn : (l₁.map Prod.fst).Nodup) :
    sortByKey l₁ = sortByKey l₂ := by
  rw [sortByKey, sortByKey, sortStrings_eq_of_perm (h.map Prod.fst)]
  have hfun : (fun k => (List.lookup k l₁).map (fun v => (k, v))) =
      (fun k => (List.lookup k l₂).map (fun v => (k, v))) := by
    funext k
    rw [lookup_congr_perm k h hn]
  rw [hfun]

theorem renderInterface_congr (n : String) {s s' : SchemaT}
    (enumT : String → Bool) (h : SchemaEquiv s s')
    (hn : (s.properties.map Prod.fst).Nodup) :
    renderInterface n s enumT = renderInterface n s' enumT := by
  have hp : processedPropsOf s enumT = processedPropsOf s' enumT := by
    rw [processedPropsOf, processedPropsOf, sortByKey_congr_perm h.2.1 hn]
  rw [renderInterface, renderInterface,
    show s.enum = s'.enum from h.2.2.2.2.2.2.2, hp]

theorem foldl_assocSet_eq_filterMap (enumT : String → Bool) :
    ∀ (schemas : List (String × SchemaT)) (acc : List (String × String)),
      (schemas.map Prod.fst).Nodup →
      (∀ n, n ∈ acc.map Prod.fst → n ∉ schemas.map Prod.fst) →
      schemas.foldl (fun acc q =>
        let code := renderInterface q.1 q.2 enumT
        if code == "" then acc else assocSet acc q.1 code) acc =
      acc ++ schemas.filterMap (fun q =>
        if renderInterface q.1 q.2 enumT == "" then none
        else some (q.1, renderInterface q.1 q.2 enumT))
  | [], acc, _, _ => by simp
  | (n, s) :: rest, acc, hnd, hdisj => by
    rw [List.map_cons, List.nodup_cons] at hnd
    rw [List.filterMap_cons]
    by_cases hc : (renderInterface n s enumT == "") = true
    · show rest.foldl _ (if (renderInterface n s enumT == "") = true then acc
          else assocSet acc n (renderInterface n s enumT)) = _
      rw [if_pos hc]
      have hF : (if (renderInterface n s enumT == "") = true then none
          else some (n, renderInterface n s enumT)) = (none : Option (String × String)) :=
        if_pos hc
      rw [hF]
      exact foldl_assocSet_eq_filterMap enumT rest acc hnd.2
        (fun k hk => fun hmem => hdisj k hk (by simp [hmem]))
    · show rest.foldl _ (if (renderInterface n s enumT == "") = true then acc
          else assocSet acc n (renderInterface n s enumT)) = _
      rw [if_neg hc]
      have hF : (if (renderInterface n s enumT == "") = true then none
          else some (n, renderInterface n s enumT)) =
          some (n, renderInterface n s enumT) := if_neg hc
      rw [hF]
      have hfresh : n ∉ acc.map Prod.fst := fun hmem => hdisj n hmem (by simp)
      rw [assocSet_fresh _ hfresh]
      rw [foldl_assocSet_eq_filterMap enumT rest (acc ++ [(n, renderInterface n s enumT)])
        hnd.2 ?_]
      · rw [List.append_assoc]
        rfl
      · intro k hk
        rw [List.map_append] at hk
        rcases List.mem_append.mp hk with h1 | h1
        · exact fun hmem => hdisj k h1 (by simp [hmem])
        · have : k = n := by simpa using h1
          subst this
          exact hnd.1

theorem interfacesAOf_eq (d : Doc) (hnd : (d.schemas.map Prod.fst).Nodup) :
    interfacesAOf d = d.schemas.filterMap (fun q =>
      if renderInterface q.1 q.2 (enumTypesOf d.schemas) == "" then none
      else some (q.1, renderInterface q.1 q.2 (enumTypesOf d.schemas))) := by
  have := foldl_assocSet_eq_filterMap (enumTypesOf d.schemas) d.schemas []
    hnd (by simp)
  simpa [interfacesAOf] using this

theorem filterMap_keys_sublist {α β : Type}
    (F : (String × α) → Option (String × β))
    (hkey : ∀ q r, F q = some r → r.1 = q.1) :
    ∀ (l : List (String × α)),
      ((l.filterMap F).map Prod.fst).Sublist (l.map Prod.fst)
  | [] => List.Sublist.refl _
  | a :: t => by
    rw [List.filterMap_cons, List.map_cons]
    cases hf : F a with
    | none => exact (filterMap_keys_sublist F hkey t).cons a.1
    | some r =>
      rw [List.map_cons, hkey a r hf]
      exact (filterMap_keys_sublist F hkey t).cons₂ a.1

theorem assocSet_keys {α : Type} (l : List (String × α)) (k : String) (v : α) :
    (assocSet l k v).map Prod.fst =
      if k ∈ l.map Prod.fst then l.map Prod.fst else l.map Prod.fst ++ [k] := by
  by_cases hm : k ∈ l.map Prod.fst
  · rw [if_pos hm, assocSet, if_pos (by
      rw [← Bool.not_eq_false]
      intro hf
      exact anyKey_eq_false_iff.mp hf hm)]
    rw [List.map_map]
    apply List.map_congr_left
    intro p _
    by_cases hp : (p.1 == k) = true
    · simp only [Function.comp_apply, if_pos hp]
      have : p.1 = k := by simpa using hp
      rw [this]
    · simp only [Function.comp_apply, if_neg hp]
  · rw [if_neg hm, assocSet_fresh v hm, List.map_append]
    rfl

theorem assocSet_keys_nodup {α : Type} {l : List (String × α)} (k : String)
    (v : α) (hn : (l.map Prod.fst).Nodup) :
    ((assocSet l k v).map Prod.fst).Nodup := by
  rw [assocSet_keys]
  by_cases hm : k ∈ l.map Prod.fst
  · rw [if_pos hm]
    exact hn
  · rw [if_neg hm]
    exact List.Nodup.append hn (List.nodup_singleton k)
      (fun a ha hb => hm ((List.mem_singleton.mp hb) ▸ ha))

theorem assocSet_perm {α : Type} {l₁ l₂ : List (String × α)} (h : l₁.Perm l₂)
    (k : String) (v : α) : (assocSet l₁ k v).Perm (assocSet l₂ k v) := by
  have hany : (l₁.any fun p => p.1 == k) = (l₂.any fun p => p.1 == k) :=
    perm_any_eq h _
  rw [assocSet, assocSet, ← hany]
  by_cases ha : (l₁.any fun p => p.1 == k) = true
  · rw [if_pos ha, if_pos ha]
    exact h.map _
  · rw [if_neg ha, if_neg ha]
    exact h.append_right _

theorem forall₂_keys_eq {α : Type} {R : α → α → Prop} :
    ∀ {l₁ l₂ : List (String × α)},
      List.Forall₂ (fun p q => p.1 = q.1 ∧ R p.2 q.2) l₁ l₂ →
      l₁.map Prod.fst = l₂.map Prod.fst
  | _, _, List.Forall₂.nil => rfl
  | _, _, List.Forall₂.cons h t => by
    rw [List.map_cons, List.map_cons, h.1, forall₂_keys_eq t]

theorem assocRel_keys_perm {α : Type} {r : α → α → Prop}
    {l₁ l₂ : List (String × α)} (h : AssocRel r l₁ l₂) :
    (l₁.map Prod.fst).Perm (l₂.map Prod.fst) := by
  obtain ⟨mid, hperm, hf⟩ := h
  rw [← forall₂_keys_eq hf]
  exact hperm.map Prod.fst

theorem lookup_assocRel {α : Type} {r : α → α → Prop}
    {l₁ l₂ : List (String × α)} (k : String) (h : AssocRel r l₁ l₂)
    (hn : (l₁.map Prod.fst).Nodup) :
    optRel r (List.lookup k l₁) (List.lookup k l₂) := by
  obtain ⟨mid, hperm, hf⟩ := h
  rw [lookup_congr_perm k hperm hn]
  clear hperm hn
  induction hf with
  | nil => trivial
  | cons hpq t ih =>
    rename_i p q l₁' l₂'
    obtain ⟨hk, hr⟩ := hpq
    obtain ⟨a, b⟩ := p
    obtain ⟨a', b'⟩ := q
    simp only at hk
    subst hk
    by_cases hka : (k == a) = true
    · simp only [List.lookup, hka]
      exact hr
    · simp only [List.lookup, Bool.not_eq_true] at hka
      simp only [List.lookup, hka]
      exact ih

theorem perm_short_eq {α : Type} {l₁ l₂ : List α} (h : l₁.Perm l₂)
    (hlen : l₁.length ≤ 1) : l₁ = l₂ := by
  cases l₁ with
  | nil => exact List.Perm.nil_eq h
  | cons a t =>
    cases t with
    | nil => exact List.singleton_perm.mp h
    | cons b t' => simp at hlen

/-- The relation preserved by the request-type generation pass. -/
def RG (st₁ st₂ : ReqGenState) : Prop :=
  st₁.generatedRequestTypes = st₂.generatedRequestTypes ∧
  st₁.interfaces.Perm st₂.interfaces ∧
  (st₁.interfaces.map Prod.fst).Nodup

theorem reqGenOp_rel {o₁ o₂ : OperationT} (h : OpEquiv o₁ o₂)
    {st₁ st₂ : ReqGenState} (hst : RG st₁ st₂) :
    RG (reqGenOp st₁ o₁) (reqGenOp st₂ o₂) := by
  obtain ⟨hg, hperm, hnd⟩ := hst
  have hpar : o₁.parameters = o₂.parameters := h.2.2.2.1
  have hoid : o₁.operationId = o₂.operationId := h.2.2.1
  have hrb := h.2.2.2.2.1
  simp only [reqGenOp, hpar, hoid]
  by_cases hpe : o₂.parameters.isEmpty = true
  · rw [if_pos hpe, if_pos hpe]
    exact ⟨hg, hperm, hnd⟩
  · rw [if_neg hpe, if_neg hpe]
    cases hrb1 : o₁.requestBody with
    | some c₁ =>
      cases hrb2 : o₂.requestBody with
      | some c₂ => exact ⟨hg, hperm, hnd⟩
      | none =>
        rw [hrb1, hrb2] at hrb
        exact absurd hrb (by simp [optRel])
    | none =>
      cases hrb2 : o₂.requestBody with
      | some c₂ =>
        rw [hrb1, hrb2] at hrb
        exact absurd hrb (by simp [optRel])
      | none =>
        simp only [hg]
        by_cases hcond : (generateRequestTypeFromParameters o₂.parameters
            o₂.operationId != "EmptyRequest" &&
            !st₂.generatedRequestTypes.contains
              (generateRequestTypeFromParameters o₂.parameters o₂.operationId)) = true
        · rw [if_pos hcond, if_pos hcond]
          by_cases hri : (generateRequestInterfaceFromParameters
              (generateRequestTypeFromParameters o₂.parameters o₂.operationId)
              o₂.parameters != "") = true
          · rw [if_pos hri, if_pos hri]
            exact ⟨rfl, assocSet_perm hperm _ _, assocSet_keys_nodup _ _ hnd⟩
          · rw [if_neg hri, if_neg hri]
            exact ⟨rfl, hperm, hnd⟩
        · rw [if_neg hcond, if_neg hcond]
          exact ⟨hg, hperm, hnd⟩

theorem foldl_rel_congr {σ₁ σ₂ α β : Type} (R : σ₁ → σ₂ → Prop)
    (f : σ₁ → α → σ₁) (g : σ₂ → β → σ₂) :
    ∀ {l₁ : List α} {l₂ : List β},
      List.Forall₂ (fun a b => ∀ t₁ t₂, R t₁ t₂ → R (f t₁ a) (g t₂ b)) l₁ l₂ →
      ∀ s₁ s₂, R s₁ s₂ → R (l₁.foldl f s₁) (l₂.foldl g s₂)
  | _, _, List.Forall₂.nil, _, _, hR => hR
  | _, _, List.Forall₂.cons h t, s₁, s₂, hR =>
    foldl_rel_congr R f g t _ _ (h s₁ s₂ hR)

theorem foldlM_opt_congr {σ α β : Type} (f : σ → α → Option σ)
    (g : σ → β → Option σ) :
    ∀ {l₁ : List α} {l₂ : List β},
      List.Forall₂ (fun a b => ∀ s, f s a = g s b) l₁ l₂ →
      ∀ s, l₁.foldlM f s = l₂.foldlM g s
  | _, _, List.Forall₂.nil, _ => rfl
  | _, _, List.Forall₂.cons h t, s => by
    rw [List.foldlM_cons, List.foldlM_cons, h s]
    rename_i b l₁' l₂'
    cases g s b with
    | none => rfl
    | some s' => exact foldlM_opt_congr f g t s'

theorem reqGenPath_rel {paths₁ paths₂ : List (String × PathItemT)}
    (hp : AssocRel ItemEquiv paths₁ paths₂)
    (hn : (paths₁.map Prod.fst).Nodup) (path : String)
    {st₁ st₂ : ReqGenState} (hst : RG st₁ st₂) :
    RG (reqGenPath paths₁ st₁ path) (reqGenPath paths₂ st₂ path) := by
  rw [reqGenPath, reqGenPath]
  have hlk := lookup_assocRel path hp hn
  cases h1 : List.lookup path paths₁ with
  | none =>
    cases h2 : List.lookup path paths₂ with
    | none => exact hst
    | some item₂ =>
      rw [h1, h2] at hlk
      exact absurd hlk (by simp [optRel])
  | some item₁ =>
    cases h2 : List.lookup path paths₂ with
    | none =>
      rw [h1, h2] at hlk
      exact absurd hlk (by simp [optRel])
    | some item₂ =>
      rw [h1, h2] at hlk
      have hitem : ItemEquiv item₁ item₂ := hlk
      apply foldl_rel_congr RG _ _ ?_ st₁ st₂ hst
      rw [opsOfPathReq, opsOfPathReq]
      refine List.Forall₂.cons ?_ (List.Forall₂.cons ?_ (List.Forall₂.cons ?_
        (List.Forall₂.cons ?_ List.Forall₂.nil))) <;>
        intro t₁ t₂ hR
      · cases hg1 : item₁.get with
        | none =>
          cases hg2 : item₂.get with
          | none => exact hR
          | some o₂ =>
            have := hitem.2.1
            rw [hg1, hg2] at this
            exact absurd this (by simp [optRel])
        | some o₁ =>
          cases hg2 : item₂.get with
          | none =>
            have := hitem.2.1
            rw [hg1, hg2] at this
            exact absurd this (by simp [optRel])
          | some o₂ =>
            have ho : OpEquiv o₁ o₂ := by
              have := hitem.2.1
              rw [hg1, hg2] at this
              exact this
            exact reqGenOp_rel ho hR
      · cases hg1 : item₁.delete with
        | none =>
          cases hg2 : item₂.delete with
          | none => exact hR
          | some o₂ =>
            have := hitem.2.2.2
            rw [hg1, hg2] at this
            exact absurd this (by simp [optRel])
        | some o₁ =>
          cases hg2 : item₂.delete with
          | none =>
            have := hitem.2.2.2
            rw [hg1, hg2] at this
            exact absurd this (by simp [optRel])
          | some o₂ =>
            have ho : OpEquiv o₁ o₂ := by
              have := hitem.2.2.2
              rw [hg1, hg2] at this
              exact this
            exact reqGenOp_rel ho hR
      · cases hg1 : item₁.put with
        | none =>
          cases hg2 : item₂.put with
          | none => exact hR
          | some o₂ =>
            have := hitem.2.2.1
            rw [hg1, hg2] at this
            exact absurd this (by simp [optRel])
        | some o₁ =>
          cases hg2 : item₂.put with
          | none =>
            have := hitem.2.2.1
            rw [hg1, hg2] at this
            exact absurd this (by simp [optRel])
          | some o₂ =>
            have ho : OpEquiv o₁ o₂ := by
              have := hitem.2.2.1
              rw [hg1, hg2] at this
              exact this
            exact reqGenOp_rel ho hR
      · cases hg1 : item₁.post with
        | none =>
          cases hg2 : item₂.post with
          | none => exact hR
          | some o₂ =>
            have := hitem.1
            rw [hg1, hg2] at this
            exact absurd this (by simp [optRel])
        | some o₁ =>
          cases hg2 : item₂.post with
          | none =>
            have := hitem.1
            rw [hg1, hg2] at this
            exact absurd this (by simp [optRel])
          | some o₂ =>
            have ho : OpEquiv o₁ o₂ := by
              have := hitem.1
              rw [hg1, hg2] at this
              exact this
            exact reqGenOp_rel ho hR

theorem paramTypeOf_congr {o₁ o₂ : OperationT} (h : OpEquiv o₁ o₂)
    (hs : smallContentOp o₁) : paramTypeOf o₁ = paramTypeOf o₂ := by
  have hpar := h.2.2.2.1
  have hoid := h.2.2.1
  have hrb := h.2.2.2.2.1
  cases h1 : o₁.requestBody with
  | none =>
    cases h2 : o₂.requestBody with
    | none => simp only [paramTypeOf, h1, h2, hpar, hoid]
    | some c₂ =>
      rw [h1, h2] at hrb
      exact absurd hrb (by simp [optRel])
  | some c₁ =>
    cases h2 : o₂.requestBody with
    | none =>
      rw [h1, h2] at hrb
      exact absurd hrb (by simp [optRel])
    | some c₂ =>
      rw [h1, h2] at hrb
      have hcc : c₁ = c₂ := perm_short_eq hrb (hs.1 c₁ h1)
      simp only [paramTypeOf, h1, h2, hcc]

theorem responseTypeOf_congr {o₁ o₂ : OperationT} (h : OpEquiv o₁ o₂)
    (hs : smallContentOp o₁)
    (hn : (o₁.responses.map Prod.fst).Nodup) :
    responseTypeOf o₁ = responseTypeOf o₂ := by
  have hlk := lookup_assocRel "200" h.2.2.2.2.2 hn
  cases h1 : List.lookup "200" o₁.responses with
  | none =>
    cases h2 : List.lookup "200" o₂.responses with
    | none => simp only [responseTypeOf, h1, h2]
    | some c₂ =>
      rw [h1, h2] at hlk
      exact absurd hlk (by simp [optRel])
  | some c₁ =>
    cases h2 : List.lookup "200" o₂.responses with
    | none =>
      rw [h1, h2] at hlk
      exact absurd hlk (by simp [optRel])
    | some c₂ =>
      rw [h1, h2] at hlk
      have hmem := lookup_mem h1
      have hcc : c₁ = c₂ := perm_short_eq hlk (hs.2 ("200", c₁) hmem)
      simp only [responseTypeOf, h1, h2, hcc]

theorem summaryOf_congr {o₁ o₂ : OperationT} (h : OpEquiv o₁ o₂) :
    summaryOf o₁ = summaryOf o₂ := by
  simp only [summaryOf, h.1, h.2.1, h.2.2.1]

theorem processOp_congr (path method : String) (st : SynthState)
    {o₁ o₂ : OperationT} (h : OpEquiv o₁ o₂) (hs : smallContentOp o₁)
    (hn : (o₁.responses.map Prod.fst).Nodup) :
    processOp path method st o₁ = processOp path method st o₂ := by
  simp only [processOp, h.1, h.2.2.1, paramTypeOf_congr h hs,
    responseTypeOf_congr h hs hn, summaryOf_congr h]

theorem processPath_congr {paths₁ paths₂ : List (String × PathItemT)}
    (hp : AssocRel ItemEquiv paths₁ paths₂)
    (hn : (paths₁.map Prod.fst).Nodup) (path : String)
    (hsmall : ∀ item, List.lookup path paths₁ = some item →
      ∀ o ∈ itemOps item, ∀ op, o = some op →
        smallContentOp op ∧ (op.responses.map Prod.fst).Nodup) :
    ∀ st, processPath paths₁ st path = processPath paths₂ st path := by
  intro st
  rw [processPath, processPath]
  have hlk := lookup_assocRel path hp hn
  cases h1 : List.lookup path paths₁ with
  | none =>
    cases h2 : List.lookup path paths₂ with
    | none => rfl
    | some item₂ =>
      rw [h1, h2] at hlk
      exact absurd hlk (by simp [optRel])
  | some item₁ =>
    cases h2 : List.lookup path paths₂ with
    | none =>
      rw [h1, h2] at hlk
      exact absurd hlk (by simp [optRel])
    | some item₂ =>
      rw [h1, h2] at hlk
      have hitem : ItemEquiv item₁ item₂ := hlk
      apply foldlM_opt_congr
      rw [opsOfPathMain, opsOfPathMain]
      refine List.Forall₂.cons ?_ (List.Forall₂.cons ?_ (List.Forall₂.cons ?_
        (List.Forall₂.cons ?_ List.Forall₂.nil))) <;> intro s
      · cases hg1 : item₁.post with
        | none =>
          cases hg2 : item₂.post with
          | none => rfl
          | some o₂ =>
            have hx := hitem.1
            rw [hg1, hg2] at hx
            exact absurd hx (by simp [optRel])
        | some o₁ =>
          cases hg2 : item₂.post with
          | none =>
            have hx := hitem.1
            rw [hg1, hg2] at hx
            exact absurd hx (by simp [optRel])
          | some o₂ =>
            have ho : OpEquiv o₁ o₂ := by
              have hx := hitem.1
              rw [hg1, hg2] at hx
              exact hx
            obtain ⟨hs, hn⟩ :=
              hsmall item₁ h1 item₁.post (by simp [itemOps]) o₁ hg1
            exact processOp_congr path "POST" s ho hs hn
      · cases hg1 : item₁.get with
        | none =>
          cases hg2 : item₂.get with
          | none => rfl
          | some o₂ =>
            have hx := hitem.2.1
            rw [hg1, hg2] at hx
            exact absurd hx (by simp [optRel])
        | some o₁ =>
          cases hg2 : item₂.get with
          | none =>
            have hx := hitem.2.1
            rw [hg1, hg2] at hx
            exact absurd hx (by simp [optRel])
          | some o₂ =>
            have ho : OpEquiv o₁ o₂ := by
              have hx := hitem.2.1
              rw [hg1, hg2] at hx
              exact hx
            obtain ⟨hs, hn⟩ :=
              hsmall item₁ h1 item₁.get (by simp [itemOps]) o₁ hg1
            exact processOp_congr path "GET" s ho hs hn
      · cases hg1 : item₁.put with
        | none =>
          cases hg2 : item₂.put with
          | none => rfl
          | some o₂ =>
            have hx := hitem.2.2.1
            rw [hg1, hg2] at hx
            exact absurd hx (by simp [optRel])
        | some o₁ =>
          cases hg2 : item₂.put with
          | none =>
            have hx := hitem.2.2.1
            rw [hg1, hg2] at hx
            exact absurd hx (by simp [optRel])
          | some o₂ =>
            have ho : OpEquiv o₁ o₂ := by
              have hx := hitem.2.2.1
              rw [hg1, hg2] at hx
              exact hx
            obtain ⟨hs, hn⟩ :=
              hsmall item₁ h1 item₁.put (by simp [itemOps]) o₁ hg1
            exact processOp_congr path "PUT" s ho hs hn
      · cases hg1 : item₁.delete with
        | none =>
          cases hg2 : item₂.delete with
          | none => rfl
          | some o₂ =>
            have hx := hitem.2.2.2
            rw [hg1, hg2] at hx
            exact absurd hx (by simp [optRel])
        | some o₁ =>
          cases hg2 : item₂.delete with
          | none =>
            have hx := hitem.2.2.2
            rw [hg1, hg2] at hx
            exact absurd hx (by simp [optRel])
          | some o₂ =>
            have ho : OpEquiv o₁ o₂ := by
              have hx := hitem.2.2.2
              rw [hg1, hg2] at hx
              exact hx
            obtain ⟨hs, hn⟩ :=
              hsmall item₁ h1 item₁.delete (by simp [itemOps]) o₁ hg1
            exact processOp_congr path "DELETE" s ho hs hn

theorem sortedPaths_congr {d₁ d₂ : Doc} (h : DocEquiv d₁ d₂) :
    sortedPathsOf d₁ = sortedPathsOf d₂ :=
  sortStrings_eq_of_perm (assocRel_keys_perm h.1)

theorem synthStateOf_congr {d₁ d₂ : Doc} (h : DocEquiv d₁ d₂)
    (w₁ : wfDoc d₁) (hs₁ : smallContentDoc d₁) :
    synthStateOf d₁ = synthStateOf d₂ := by
  rw [synthStateOf, synthStateOf, ← sortedPaths_congr h]
  apply foldlM_opt_congr
  apply List.forall₂_same.mpr
  intro path _
  intro s
  apply processPath_congr h.1 w₁.1 path ?_ s
  intro item hitem o ho op hop
  have hmem : (path, item) ∈ d₁.paths := lookup_mem hitem
  exact ⟨hs₁ (path, item) hmem o ho op hop,
    w₁.2.2.2 (path, item) hmem o ho op hop⟩

theorem interfacesA_rel {d₁ d₂ : Doc} (h : DocEquiv d₁ d₂) (w₁ : wfDoc d₁) :
    (interfacesAOf d₁).Perm (interfacesAOf d₂) ∧
    ((interfacesAOf d₁).map Prod.fst).Nodup := by
  have hnd₂ : (d₂.schemas.map Prod.fst).Nodup :=
    ((assocRel_keys_perm h.2).nodup_iff).mp w₁.2.1
  have hET := enumTypesOf_congr h.2
  constructor
  · rw [interfacesAOf_eq d₁ w₁.2.1, interfacesAOf_eq d₂ hnd₂, ← hET]
    obtain ⟨mid, hperm, hf⟩ := h.2
    have h1 := hperm.filterMap (fun q =>
      if renderInterface q.1 q.2 (enumTypesOf d₁.schemas) == "" then none
      else some (q.1, renderInterface q.1 q.2 (enumTypesOf d₁.schemas)))
    have heq : mid.filterMap (fun q =>
        if renderInterface q.1 q.2 (enumTypesOf d₁.schemas) == "" then none
        else some (q.1, renderInterface q.1 q.2 (enumTypesOf d₁.schemas))) =
        d₂.schemas.filterMap (fun q =>
        if renderInterface q.1 q.2 (enumTypesOf d₁.schemas) == "" then none
        else some (q.1, renderInterface q.1 q.2 (enumTypesOf d₁.schemas))) := by
      apply @forall₂_filterMap_eq_mem (String × SchemaT) (String × String) _ _
        d₁.schemas ?_ mid d₂.schemas (fun z hz => hperm.mem_iff.mpr hz) hf
      intro x y hx hxy
      have hR := renderInterface_congr x.1 (enumTypesOf d₁.schemas) hxy.2
        (w₁.2.2.1 x hx)
      rw [hxy.1] at hR
      simp only [hxy.1, hR]
    rw [heq] at h1
    exact h1
  · rw [interfacesAOf_eq d₁ w₁.2.1]
    apply List.Nodup.sublist ?_ w₁.2.1
    apply filterMap_keys_sublist
    intro q r hqr
    by_cases hc : (renderInterface q.1 q.2 (enumTypesOf d₁.schemas) == "") = true
    · rw [if_pos hc] at hqr
      cases hqr
    · rw [if_neg hc] at hqr
      injection hqr with hqr
      rw [← hqr]

theorem interfacesB_rel {d₁ d₂ : Doc} (h : DocEquiv d₁ d₂) (w₁ : wfDoc d₁) :
    (interfacesBOf d₁).Perm (interfacesBOf d₂) ∧
    ((interfacesBOf d₁).map Prod.fst).Nodup := by
  obtain ⟨hA, hAnd⟩ := interfacesA_rel h w₁
  rw [interfacesBOf, interfacesBOf, ← sortedPaths_congr h]
  have hres := @foldl_rel_congr ReqGenState ReqGenState String String RG
    (reqGenPath d₁.paths) (reqGenPath d₂.paths)
    (sortedPathsOf d₁) (sortedPathsOf d₁)
    (List.forall₂_same.mpr (fun path _ => fun t₁ t₂ hR =>
      reqGenPath_rel h.1 w₁.1 path hR))
    ⟨[], interfacesAOf d₁⟩ ⟨[], interfacesAOf d₂⟩ ⟨rfl, hA, hAnd⟩
  exact ⟨hres.2.1, hres.2.2⟩

theorem allEnums_rel {d₁ d₂ : Doc} (h : DocEquiv d₁ d₂) :
    (allEnumsOf d₁).Perm (allEnumsOf d₂) := by
  obtain ⟨mid, hperm, hf⟩ := h.2
  rw [allEnumsOf, allEnumsOf]
  have h1 := hperm.filterMap (fun q : String × SchemaT =>
    if q.2.enum.isEmpty then none
    else some (⟨q.1, cleanRef ("#/" ++ q.1),
      sortStrings (yvalStrings q.2.enum)⟩ : EnumData))
  have heq := @forall₂_filterMap_eq_mem (String × SchemaT) EnumData
    (fun x y => x.1 = y.1 ∧ SchemaEquiv x.2 y.2)
    (fun q : String × SchemaT =>
      if q.2.enum.isEmpty then none
      else some (⟨q.1, cleanRef ("#/" ++ q.1),
        sortStrings (yvalStrings q.2.enum)⟩ : EnumData))
    mid
    (fun x y _ hxy => by
      simp only [hxy.1, show x.2.enum = y.2.enum from hxy.2.2.2.2.2.2.2.2])
    mid d₂.schemas (fun z hz => hz) hf
  rw [heq] at h1
  exact h1

theorem eq_of_perm_sorted_keyInj {α : Type} (key : α → String) :
    ∀ {l₁ l₂ : List α}, l₁.Perm l₂ →
      List.Sorted (fun a b => strLe (key a) (key b)) l₁ →
      List.Sorted (fun a b => strLe (key a) (key b)) l₂ →
      (l₁.map key).Nodup → l₁ = l₂
  | [], l₂, h, _, _, _ => List.Perm.nil_eq h
  | a :: t₁, l₂, h, s₁, s₂, hn => by
    cases l₂ with
    | nil =>
      have := h.length_eq
      simp at this
    | cons b t₂ =>
      have hmk : (a :: t₁).map key = (b :: t₂).map key := by
        have hs₁ : List.Sorted strLe ((a :: t₁).map key) :=
          List.Pairwise.map key (fun _ _ hab => hab) s₁
        have hs₂ : List.Sorted strLe ((b :: t₂).map key) :=
          List.Pairwise.map key (fun _ _ hab => hab) s₂
        exact List.eq_of_perm_of_sorted (h.map key) hs₁ hs₂
      have hab : key a = key b := by
        rw [List.map_cons, List.map_cons] at hmk
        injection hmk
      have hae : a = b := by
        rcases List.mem_cons.mp (h.mem_iff.mp (List.mem_cons_self a t₁)) with
          heq | hmem
        · exact heq
        · exfalso
          have hka : key a ∈ t₂.map key := List.mem_map.mpr ⟨a, hmem, rfl⟩
          have hn₂ : ((b :: t₂).map key).Nodup := hmk ▸ hn
          rw [List.map_cons, List.nodup_cons] at hn₂
          exact hn₂.1 (hab ▸ hka)
      subst hae
      have ht : t₁.Perm t₂ := h.cons_inv
      rw [eq_of_perm_sorted_keyInj key ht s₁.of_cons s₂.of_cons
        (by rw [List.map_cons, List.nodup_cons] at hn; exact hn.2)]

instance : IsTotal EnumData enumLe :=
  ⟨fun a b => listLeB_total a.typeName.data b.typeName.data⟩

instance : IsTrans EnumData enumLe :=
  ⟨fun a b c h1 h2 =>
    listLeB_trans a.typeName.data b.typeName.data c.typeName.data h1 h2⟩

theorem enumsOut_congr {d₁ d₂ : Doc} (h : DocEquiv d₁ d₂)
    (he : enumTypeNamesDistinct d₁) : enumsOutOf d₁ = enumsOutOf d₂ := by
  have hperm := allEnums_rel h
  apply eq_of_perm_sorted_keyInj EnumData.typeName
  · exact (List.perm_insertionSort enumLe _).trans
      (hperm.trans (List.perm_insertionSort enumLe _).symm)
  · exact List.sorted_insertionSort enumLe _
  · exact List.sorted_insertionSort enumLe _
  · exact (((List.perm_insertionSort enumLe _).map EnumData.typeName).nodup_iff).mpr he

theorem perm_isEmpty_eq {α : Type} {l₁ l₂ : List α} (h : l₁.Perm l₂) :
    l₁.isEmpty = l₂.isEmpty := by
  cases l₁ with
  | nil =>
    rw [← List.Perm.nil_eq h]
  | cons a t =>
    cases l₂ with
    | nil =>
      have := h.length_eq
      simp at this
    | cons b t₂ => rfl

theorem dedupKeepFirst_perm {l₁ l₂ : List String} (h : l₁.Perm l₂) :
    (dedupKeepFirst l₁).Perm (dedupKeepFirst l₂) :=
  (List.perm_ext_iff_of_nodup (dedupKeepFirst_nodup _)
    (dedupKeepFirst_nodup _)).mpr (fun a => by
      rw [dedupKeepFirst_mem, dedupKeepFirst_mem]
      exact h.mem_iff)

theorem generateImports_congr (m : String) {ti₁ ti₂ : List (String × String)}
    (hperm : ti₁.Perm ti₂) (fns : List String) :
    generateImports m ti₁ fns = generateImports m ti₂ fns := by
  rw [generateImports, generateImports]
  by_cases hm : (m != "types") = true
  · rw [if_pos hm, if_pos hm]
    by_cases h2 : ti₂.isEmpty = true
    · rw [if_pos (by rw [perm_isEmpty_eq hperm]; exact h2), if_pos h2]
    · rw [if_neg (by rw [perm_isEmpty_eq hperm]; exact h2), if_neg h2]
      have hneed := dedupKeepFirst_perm
        (List.Perm.filter
          (fun c => (fns.foldl (fun acc f => acc ++ extractUsedTypes f)
            []).contains c)
          ((hperm.map Prod.fst).map cleanIfaceName))
      simp only [perm_isEmpty_eq hneed, sortStrings_eq_of_perm hneed]
  · rw [if_neg hm, if_neg hm]

theorem apiModulesOf_congr (st : SynthState) {ti₁ ti₂ : List (String × String)}
    (hperm : ti₁.Perm ti₂) : apiModulesOf st ti₁ = apiModulesOf st ti₂ := by
  rw [apiModulesOf, apiModulesOf]
  have hfun : (fun m => (List.lookup m st.functionsByModule).bind (fun fns =>
      if fns.isEmpty then none
      else some (m, (⟨moduleFunctions fns st.functionOrder,
        generateImports m ti₁ (moduleFunctions fns st.functionOrder)⟩ : ModuleOut)))) =
      (fun m => (List.lookup m st.functionsByModule).bind (fun fns =>
      if fns.isEmpty then none
      else some (m, (⟨moduleFunctions fns st.functionOrder,
        generateImports m ti₂ (moduleFunctions fns st.functionOrder)⟩ : ModuleOut)))) := by
    funext m
    cases List.lookup m st.functionsByModule with
    | none => rfl
    | some fns =>
      rw [Option.some_bind, Option.some_bind]
      by_cases hfe : fns.isEmpty = true
      · rw [if_pos hfe, if_pos hfe]
      · rw [if_neg hfe, if_neg hfe, generateImports_congr m hperm]
  rw [hfun]

theorem extractUsedEnums_congr {l₁ l₂ : List (String × String)}
    (h : l₁.Perm l₂) (eT : String → Bool) :
    extractUsedEnums l₁ eT = extractUsedEnums l₂ eT := by
  rw [extractUsedEnums, extractUsedEnums]
  apply sortedDedup_eq_of_mem_iff
  intro x
  have hp2 : ((l₁.map Prod.snd).map enumMatchesOf).flatten.Perm
      ((l₂.map Prod.snd).map enumMatchesOf).flatten :=
    List.Perm.flatten ((h.map Prod.snd).map enumMatchesOf)
  exact (hp2.filter eT).mem_iff

/-- C1 amended: the synthesis is deterministic on every well-formed document
in which each request-body and response content map has at most one
media-type entry and no two enumerated schemas share a resolved enum type
name: two runs (two presentations of the same document under permuted map
iteration orders) render identical output for every module.  The
counterexample shows the single-media-entry hypothesis is necessary; the
enum hypothesis is forced the same way because the enum file sorts with an
unstable sort keyed only by type name. -/
theorem c1_deterministic_output (d₁ d₂ : Doc) (hEq : DocEquiv d₁ d₂)
    (w₁ : wfDoc d₁) (hsmall : smallContentDoc d₁)
    (henum : enumTypeNamesDistinct d₁) :
    run d₁ = run d₂ := by
  have hB := interfacesB_rel hEq w₁
  have hsynth := synthStateOf_congr hEq w₁ hsmall
  show (match synthStateOf d₁ with
    | none => none
    | some st => some (⟨sortByKey (interfacesBOf d₁),
        extractUsedEnums (interfacesBOf d₁) (enumTypesOf d₁.schemas),
        enumsOutOf d₁, apiModulesOf st (interfacesBOf d₁)⟩ : Output)) =
    (match synthStateOf d₂ with
    | none => none
    | some st => some (⟨sortByKey (interfacesBOf d₂),
        extractUsedEnums (interfacesBOf d₂) (enumTypesOf d₂.schemas),
        enumsOutOf d₂, apiModulesOf st (interfacesBOf d₂)⟩ : Output))
  rw [← hsynth]
  cases hs : synthStateOf d₁ with
  | none => rfl
  | some st =>
    have h1 : sortByKey (interfacesBOf d₁) = sortByKey (interfacesBOf d₂) :=
      sortByKey_congr_perm hB.1 hB.2
    have h2 : extractUsedEnums (interfacesBOf d₁) (enumTypesOf d₁.schemas) =
        extractUsedEnums (interfacesBOf d₂) (enumTypesOf d₂.schemas) := by
      rw [← enumTypesOf_congr hEq.2]
      exact extractUsedEnums_congr hB.1 _
    have h3 : enumsOutOf d₁ = enumsOutOf d₂ := enumsOut_congr hEq henum
    have h4 : apiModulesOf st (interfacesBOf d₁) =
        apiModulesOf st (interfacesBOf d₂) := apiModulesOf_congr st hB.1
    show some (⟨sortByKey (interfacesBOf d₁),
        extractUsedEnums (interfacesBOf d₁) (enumTypesOf d₁.schemas),
        enumsOutOf d₁, apiModulesOf st (interfacesBOf d₁)⟩ : Output) =
      some (⟨sortByKey (interfacesBOf d₂),
        extractUsedEnums (interfacesBOf d₂) (enumTypesOf d₂.schemas),
        enumsOutOf d₂, apiModulesOf st (interfacesBOf d₂)⟩ : Output)
    rw [h1, h2, h3, h4]

/-- A plain string property. -/
def propNameW : PropertyT := ⟨"string", "", "", "", [], none, none, []⟩

/-- A property referencing the `Status` enum schema. -/
def propStatusW : PropertyT :=
  ⟨"", "", "", "#/components/schemas/Status", [], none, none, []⟩

/-- The `Item` schema as decoded by the first run. -/
def schemaItemW1 : SchemaT :=
  ⟨"object", [("name", propNameW), ("status", propStatusW)],
    none, "", "", none, [], []⟩

/-- The `Item` schema as decoded by the second run: its properties map
iterated in the other order. -/
def schemaItemW2 : SchemaT :=
  ⟨"object", [("status", propStatusW), ("name", propNameW)],
    none, "", "", none, [], []⟩

/-- An enumerated `Status` schema. -/
def schemaStatusW : SchemaT :=
  ⟨"string", [], none, "", "", none, [], [YVal.str "B", YVal.str "A"]⟩

/-- A GET operation with a single-entry response content map. -/
def opListW : OperationT :=
  ⟨["item"], "list items", "Item_List", [], none,
    [("200", [("application/json", ⟨"#/components/schemas/Item", ""⟩)])]⟩

/-- The document as decoded by the first run. -/
def docWa : Doc :=
  ⟨[("/items", ⟨none, some opListW, none, none⟩)],
    [("Item", schemaItemW1), ("Status", schemaStatusW)]⟩

/-- The document as decoded by the second run: the schemas map iterated in
the other order and the `Item` properties map in the other order. -/
def docWb : Doc :=
  ⟨[("/items", ⟨none, some opListW, none, none⟩)],
    [("Status", schemaStatusW), ("Item", schemaItemW2)]⟩

theorem c1_deterministic_output_witness :
    DocEquiv docWa docWb ∧ wfDoc docWa ∧ smallContentDoc docWa ∧
    enumTypeNamesDistinct docWa ∧ run docWa = run docWb := by
  have hop : OpEquiv opListW opListW :=
    ⟨rfl, rfl, rfl, rfl, True.intro,
      ⟨opListW.responses, List.Perm.refl _,
        List.Forall₂.cons ⟨rfl, List.Perm.refl _⟩ List.Forall₂.nil⟩⟩
  have hitem : ItemEquiv (⟨none, some opListW, none, none⟩ : PathItemT)
      ⟨none, some opListW, none, none⟩ :=
    ⟨True.intro, hop, True.intro, True.intro⟩
  have hs1 : SchemaEquiv schemaStatusW schemaStatusW :=
    ⟨rfl, List.Perm.refl _, rfl, rfl, rfl, rfl, rfl, rfl⟩
  have hs2 : SchemaEquiv schemaItemW1 schemaItemW2 :=
    ⟨rfl, List.Perm.swap ("status", propStatusW) ("name", propNameW) [],
      rfl, rfl, rfl, rfl, rfl, rfl⟩
  have hEq : DocEquiv docWa docWb :=
    ⟨⟨docWa.paths, List.Perm.refl _,
        List.Forall₂.cons ⟨rfl, hitem⟩ List.Forall₂.nil⟩,
      ⟨[("Status", schemaStatusW), ("Item", schemaItemW1)],
        List.Perm.swap ("Status", schemaStatusW) ("Item", schemaItemW1) [],
        List.Forall₂.cons ⟨rfl, hs1⟩
          (List.Forall₂.cons ⟨rfl, hs2⟩ List.Forall₂.nil)⟩⟩
  have hwf : wfDoc docWa := by
    refine ⟨by decide, by decide, by decide, ?_⟩
    intro q hq o ho op hop
    simp only [docWa, List.mem_singleton] at hq
    subst hq
    simp only [itemOps, List.mem_cons, List.not_mem_nil, or_false] at ho
    rcases ho with rfl | rfl | rfl | rfl
    · exact Option.noConfusion hop
    · injection hop with h
      subst h
      decide
    · exact Option.noConfusion hop
    · exact Option.noConfusion hop
  have hsmall : smallContentDoc docWa := by
    intro q hq o ho op hop
    simp only [docWa, List.mem_singleton] at hq
    subst hq
    simp only [itemOps, List.mem_cons, List.not_mem_nil, or_false] at ho
    rcases ho with rfl | rfl | rfl | rfl
    · exact Option.noConfusion hop
    · injection hop with h
      subst h
      show (∀ c, opListW.requestBody = some c → c.length ≤ 1) ∧
        (∀ r ∈ opListW.responses, r.2.length ≤ 1)
      exact ⟨(fun c hc => nomatch hc), by decide⟩
    · exact Option.noConfusion hop
    · exact Option.noConfusion hop
  have henum : enumTypeNamesDistinct docWa := by
    show ((allEnumsOf docWa).map EnumData.typeName).Nodup
    decide
  exact ⟨hEq, hwf, hsmall, henum,
    c1_deterministic_output docWa docWb hEq hwf hsmall henum⟩

end Moonbeam
